import Mathlib

/-!
Shallow embedding of `algorithms-and-data-structures/data-structures/suffix-array.cpp`
and a verification of its specification.

The C++ class `SuffixArray` holds a string `s` (modelled as `List Nat` of
character codes), its length `n`, and integer arrays `sa`, `ra`, `rb`
(modelled as `List Nat`).  The three operations modelled here are
`build` (the O(n log^2 n) doubling construction), `find` (binary-search
pattern matching) and `findLCP` (PLCP / Kasai longest repeated substring).

Modelling conventions:
  * `vector<int>` indexing `v[i]` is `List.getD v i 0`; every in-bounds
    access of the C++ code is exercised with indices `< length`, and the
    single out-of-bounds vector read performed by `find` (`sa[lo]` with
    `lo = n`) is guarded explicitly and makes the embedded `find` return
    `none`; likewise `findLCP` on the empty text reads `sa[0]` out of
    bounds and is embedded as `none`.
  * `std::string` character access `s[i]` is defined for `i ≤ n` with
    `s[n] = 0` (the guaranteed null terminator); any access past `n` is
    undefined behaviour and is embedded as `none` (`charAt`).
  * `std::sort(sa.begin(), sa.end(), cmp)` is modelled by
    `List.insertionSort` with the non-strict relation `¬ cmp j i`; any
    comparison sort yields a sequence sorted in this sense, which is all
    the proofs use, and the final suffix array is over distinct keys, so
    the modelling is sort-implementation independent.
  * the C++ `for(k = 1; k < n; k <<= 1)` loop is written with an explicit
    structural fuel; fuel `n` is sufficient because `k` at least doubles
    every iteration (`2 ^ n ≥ n`), so the fuel-exhaustion branch is never
    taken from the entry point `build`.  The two binary-search loops of
    `find` get fuel `n` as well (their measure `hi - lo` starts at `n`
    and strictly decreases), and the unguarded character-comparison loop
    of `findLCP` gets fuel `n + 1` (it stops at the latest when the
    shorter suffix runs into the terminator).
-/

set_option maxHeartbeats 1000000

namespace SuffixArrayCpp

/-- A text is the list of its character codes (`string s` of the source). -/
abbrev Text := List Nat

/-- Three-way lexicographic comparison of two character-code lists, the
order used by `std::string::compare` / `std::sort` over suffixes. -/
def listCmp : List Nat → List Nat → Ordering
  | [], [] => Ordering.eq
  | [], _ :: _ => Ordering.lt
  | _ :: _, [] => Ordering.gt
  | a :: xs, b :: ys =>
    if a < b then Ordering.lt else if b < a then Ordering.gt else listCmp xs ys

/-- Non-strict lexicographic order on character-code lists. -/
def lexLe (x y : List Nat) : Prop := listCmp x y ≠ Ordering.gt

/-- Strict lexicographic order on character-code lists. -/
def lexLt (x y : List Nat) : Prop := listCmp x y = Ordering.lt

instance : DecidableRel lexLe := fun x y => by unfold lexLe; infer_instance

instance : DecidableRel lexLt := fun x y => by unfold lexLt; infer_instance

/-- Length of the longest common prefix of two lists. -/
def lcpLen : List Nat → List Nat → Nat
  | a :: xs, b :: ys => if a = b then lcpLen xs ys + 1 else 0
  | _, _ => 0

/-- The first `m` characters of the suffix of `t` starting at `i`
(`suffix(Text, i)` truncated at the text boundary). -/
def takeN (t : Text) (m i : Nat) : List Nat := (t.drop i).take m

/-- A text with no NUL character: every character code is positive. -/
def noNul (t : Text) : Prop := ∀ c ∈ t, 0 < c

/-- `ra[i]` of the source: rank-array lookup (arrays are dense, all real
accesses are in bounds). -/
def rankAt (ra : List Nat) (i : Nat) : Nat := ra.getD i 0

/-- `SuffixArray::cmp(i, j)` of the source: compare suffixes `i` and `j`
by the composite key (rank of first `k` characters, rank of next `k`
characters with sentinel `0` past the end of the text). -/
def cmp (t : Text) (ra : List Nat) (k i j : Nat) : Bool :=
  let raik := if i + k < t.length then rankAt ra (i + k) else 0
  let rajk := if j + k < t.length then rankAt ra (j + k) else 0
  (rankAt ra i < rankAt ra j) || (rankAt ra i == rankAt ra j && raik < rajk)

/-- The composite sort key of suffix `i` at doubling step `k`. -/
def keyOf (t : Text) (ra : List Nat) (k i : Nat) : Nat × Nat :=
  (rankAt ra i, if i + k < t.length then rankAt ra (i + k) else 0)

/-- Strict lexicographic order on composite keys. -/
def pairLt (a b : Nat × Nat) : Prop := a.1 < b.1 ∨ (a.1 = b.1 ∧ a.2 < b.2)

/-- The sorting relation handed to `std::sort`: `i` may precede `j`
unless `cmp` orders `j` strictly before `i`. -/
def saLe (t : Text) (ra : List Nat) (k i j : Nat) : Prop :=
  cmp t ra k j i = false

instance (t : Text) (ra : List Nat) (k : Nat) : DecidableRel (saLe t ra k) :=
  fun _ _ => instDecidableEqBool _ false

/-- Lines 110-112 of the source: walk the sorted suffix array and assign
new ranks starting at `r`, incrementing exactly when `cmp` separates two
consecutive suffixes (`rb[sa[i]] = rb[sa[i-1]] + cmp(sa[i-1], sa[i])`).
Returns the rank list in sorted-suffix order. -/
def rbList (t : Text) (ra : List Nat) (k : Nat) : List Nat → Nat → List Nat
  | [], _ => []
  | [_], r => [r]
  | a :: b :: rest, r =>
    r :: rbList t ra k (b :: rest) (r + if cmp t ra k a b then 1 else 0)

/-- Lines 113-114 of the source: copy the new ranks back into `ra`,
position by position (`ra[sa[i]] = rb[sa[i]]`); position `p` receives the
rank stored at its index in the sorted order. -/
def newRa (t : Text) (sa2 rb : List Nat) : List Nat :=
  (List.range t.length).map fun p => rb.getD (sa2.indexOf p) 0

/-- One iteration of the doubling loop of `SuffixArray::build`: sort by
`cmp`, then re-rank.  Returns the new `(sa, ra)`. -/
def buildStep (t : Text) (sa ra : List Nat) (k : Nat) : List Nat × List Nat :=
  let sa2 := sa.insertionSort (saLe t ra k)
  (sa2, newRa t sa2 (rbList t ra k sa2 1))

/-- The doubling loop `for(k = 1; k < n; k <<= 1)` of `SuffixArray::build`
with its early exit `if (ra[sa[n-1]] == n) break;`.  Structural fuel `n`
is sufficient from the entry point (see the file comment). -/
def buildLoop (t : Text) : Nat → List Nat → List Nat → Nat → List Nat × List Nat
  | 0, sa, ra, _ => (sa, ra)
  | fuel + 1, sa, ra, k =>
    if k < t.length then
      let p := buildStep t sa ra k
      if rankAt p.2 (p.1.getD (t.length - 1) 0) = t.length then p
      else buildLoop t fuel p.1 p.2 (2 * k)
    else (sa, ra)

/-- `SuffixArray::build` (invoked by the constructor): `sa` starts as the
identity permutation, `ra` as the character codes, then the doubling loop
runs from `k = 1`.  Returns the final `(sa, ra)`. -/
def build (t : Text) : List Nat × List Nat :=
  buildLoop t t.length (List.range t.length) t 1

/-- The suffix array produced by construction. -/
def buildSa (t : Text) : List Nat := (build t).1

/-- Trace of the doubling loop: one entry `(k, ra_before, sa_after,
ra_after)` per executed iteration, in execution order. -/
def buildSteps (t : Text) : Nat → List Nat → List Nat → Nat →
    List (Nat × List Nat × List Nat × List Nat)
  | 0, _, _, _ => []
  | fuel + 1, sa, ra, k =>
    if k < t.length then
      let p := buildStep t sa ra k
      if rankAt p.2 (p.1.getD (t.length - 1) 0) = t.length then [(k, ra, p.1, p.2)]
      else (k, ra, p.1, p.2) :: buildSteps t fuel p.1 p.2 (2 * k)
    else []

/-- The iteration trace of `build t`. -/
def buildTrace (t : Text) : List (Nat × List Nat × List Nat × List Nat) :=
  buildSteps t t.length (List.range t.length) t 1

/-- `s.compare(pos, m, p)` of the source: compare the substring of `t` of
length at most `m` starting at `pos` against `p`, lexicographically. -/
def subCmp (t : Text) (pos m : Nat) (p : List Nat) : Ordering :=
  listCmp ((t.drop pos).take m) p

/-- The lower-bound binary search of `SuffixArray::find` (lines 137-142).
Returns the final `lo`.  Fuel `n` is sufficient (measure `hi - lo`). -/
def lowerLoop (t : Text) (sa : List Nat) (m : Nat) (p : List Nat) :
    Nat → Nat → Nat → Nat
  | 0, lo, _ => lo
  | fuel + 1, lo, hi =>
    if lo < hi then
      let mi := (lo + hi) / 2
      if subCmp t (sa.getD mi 0) m p = Ordering.lt then lowerLoop t sa m p fuel (mi + 1) hi
      else lowerLoop t sa m p fuel lo mi
    else lo

/-- The upper-bound binary search of `SuffixArray::find` (lines 148-153),
with `int` variables (`lo` starts at `-1`).  Returns the final `hi`. -/
def upperLoop (t : Text) (sa : List Nat) (m : Nat) (p : List Nat) :
    Nat → Int → Int → Int
  | 0, _, hi => hi
  | fuel + 1, lo, hi =>
    if lo < hi then
      let mi := (lo + hi + 1) / 2
      if subCmp t (sa.getD mi.toNat 0) m p = Ordering.gt then
        upperLoop t sa m p fuel lo (mi - 1)
      else upperLoop t sa m p fuel mi hi
    else hi

/-- `SuffixArray::find`: two binary searches over the suffix array, then
the slice `sa[range.first .. range.second]`.  After the lower-bound loop
the source reads `sa[lo]` unconditionally; when `lo = n` (pattern greater
than every suffix prefix, or empty text) that read is out of bounds, and
the embedded function returns `none`. -/
def find (t p : Text) : Option (List Nat) :=
  let n := t.length
  let sa := buildSa t
  let m := p.length
  let lo := lowerLoop t sa m p n 0 n
  if lo < n then
    if subCmp t (sa.getD lo 0) m p ≠ Ordering.eq then some []
    else
      let last := upperLoop t sa m p n (-1) ((n : Int) - 1)
      some ((List.range (last + 1 - (lo : Int)).toNat).map fun j => sa.getD (lo + j) 0)
  else none

/-- `s[pos]` on a `std::string` of length `n`: defined for `pos ≤ n` with
the null terminator `0` at `pos = n`; reading past that is undefined
behaviour, embedded as `none`. -/
def charAt (t : Text) (pos : Nat) : Option Nat :=
  if pos < t.length then some (t.getD pos 0)
  else if pos = t.length then some 0 else none

/-- The unguarded scan `while(s[i + L] == s[phi[i] + L]) L++;` of
`SuffixArray::findLCP` (line 178): extend `L` while the characters match,
return the final `L`; `none` models an out-of-bounds read or a scan that
exceeds the fuel. -/
def kasaiLoop (t : Text) (i j : Nat) : Nat → Nat → Option Nat
  | 0, _ => none
  | fuel + 1, L =>
    match charAt t (i + L), charAt t (j + L) with
    | some a, some b => if a = b then kasaiLoop t i j fuel (L + 1) else some L
    | _, _ => none

/-- Lines 166-168 of the source: `phi[sa[0]] = -1` and
`phi[sa[i]] = sa[i-1]` for `i ≥ 1`.  Since `sa` is a permutation each
cell is written exactly once; position `p` gets the suffix-array entry
just before `p`'s slot. -/
def phiList (t : Text) (sa : List Nat) : List Int :=
  (List.range t.length).map fun p =>
    if sa.indexOf p = 0 then -1 else (sa.getD (sa.indexOf p - 1) 0 : Nat)

/-- The main loop of `SuffixArray::findLCP` (lines 173-187) over the
remaining original-order indices, carrying `(L, maxL, lcp)` and
accumulating the `plcp` array.  The sentinel branch stores `plcp[i] = 0`
and `continue`s (leaving `L` untouched); otherwise the scan runs, the
maximum is updated (`lcp = s.substr(i, L)`) and `L = max(L-1, 0)`. -/
def lcpLoop (t : Text) (phi : List Int) :
    List Nat → Nat → Nat → List Nat → List Nat → Option (List Nat × List Nat)
  | [], _, _, lcp, plcpAcc => some (lcp, plcpAcc)
  | i :: rest, L, maxL, lcp, plcpAcc =>
    if phi.getD i 0 = -1 then lcpLoop t phi rest L maxL lcp (plcpAcc ++ [0])
    else
      match kasaiLoop t i (phi.getD i 0).toNat (t.length + 1) L with
      | none => none
      | some L2 =>
        if maxL < L2 then
          lcpLoop t phi rest (L2 - 1) L2 ((t.drop i).take L2) (plcpAcc ++ [L2])
        else lcpLoop t phi rest (L2 - 1) maxL lcp (plcpAcc ++ [L2])

/-- `SuffixArray::findLCP` together with its `plcp` array.  On the empty
text line 167 reads `sa[0]` from an empty vector (out of bounds), so the
embedding returns `none`. -/
def lcpRun (t : Text) : Option (List Nat × List Nat) :=
  if t.length = 0 then none
  else lcpLoop t (phiList t (buildSa t)) (List.range t.length) 0 0 [] []

/-- The string returned by `SuffixArray::findLCP`. -/
def findLCP (t : Text) : Option (List Nat) := (lcpRun t).map Prod.fst

/-- The `plcp` array computed by `SuffixArray::findLCP`. -/
def plcpList (t : Text) : Option (List Nat) := (lcpRun t).map Prod.snd

/-- The mathematical value of `plcp[p]`: the length of the longest
common prefix of `suffix(p)` and `suffix(Phi[p])`, 0 at the sentinel. -/
def plcpTrue (t : Text) (p : Nat) : Nat :=
  if (phiList t (buildSa t)).getD p 0 = -1 then 0
  else lcpLen (t.drop p) (t.drop ((phiList t (buildSa t)).getD p 0).toNat)

/-- Pattern `p` occurs in `t` at start position `k` (a position of the
text whose following characters spell `p`). -/
def occursAt (t p : Text) (k : Nat) : Prop :=
  k < t.length ∧ (t.drop k).take p.length = p

instance (t p : Text) (k : Nat) : Decidable (occursAt t p k) := by
  unfold occursAt; infer_instance

/-- Suffix starting at `a` is lexicographically at most the suffix
starting at `b`. -/
def suffixLe (t : Text) (a b : Nat) : Prop := lexLe (t.drop a) (t.drop b)

instance (t : Text) : DecidableRel (suffixLe t) := fun a b => by
  unfold suffixLe; infer_instance

/-- Maximum of a list of naturals (0 for the empty list). -/
def maxOf (l : List Nat) : Nat := l.foldr max 0

/-- The maximum, over all pairs of distinct suffixes of `t`, of the
length of their longest common prefix. -/
def maxPairLcp (t : Text) : Nat :=
  maxOf ((List.range t.length).map fun i =>
    maxOf ((List.range t.length).map fun j =>
      if i = j then 0 else lcpLen (t.drop i) (t.drop j)))

/-- Rank invariant at prefix length `m`: the rank order of positions
`i, j < n` mirrors the lexicographic order of the length-`m` prefixes of
their suffixes. -/
def RankInv (t : Text) (m : Nat) (ra : List Nat) : Prop :=
  ∀ i < t.length, ∀ j < t.length,
    (rankAt ra i < rankAt ra j ↔ lexLt (takeN t m i) (takeN t m j))

/-- All positions of the text carry a rank at least 1 (strictly above the
sentinel rank 0). -/
def PosRanks (t : Text) (ra : List Nat) : Prop :=
  ∀ i < t.length, 1 ≤ rankAt ra i

/-- The padded character at position `p`: the text character for
`p < n`, and `0` — the common value of the NUL terminator at `p = n` and
of the sentinel rank used by `cmp` past the end — for every `p ≥ n`. -/
def padAt (t : Text) (p : Nat) : Nat := t.getD p 0

/-- The padded `m`-gram at position `x`: the next `m` padded characters
of the text, reading `0` at and past the end. -/
def padTake (t : Text) : Nat → Nat → List Nat
  | 0, _ => []
  | m + 1, x => padAt t x :: padTake t m (x + 1)

/-- The rank order refines the padded lexicographic order at window
width `m`: a strictly smaller padded `m`-gram forces a strictly smaller
rank.  Unlike `RankInv` this holds for every text, NUL characters
included. -/
def PadMono (t : Text) (m : Nat) (ra : List Nat) : Prop :=
  ∀ x, x < t.length → ∀ y, y < t.length →
    lexLt (padTake t m x) (padTake t m y) → rankAt ra x < rankAt ra y

/-- Positions with equal padded `m`-grams but distinct ranks: the
smaller-ranked one reaches the end of the text inside the window (its
rank was separated by the past-the-end sentinel, never by characters). -/
def PadEnd (t : Text) (m : Nat) (ra : List Nat) : Prop :=
  ∀ x, x < t.length → ∀ y, y < t.length →
    padTake t m x = padTake t m y → rankAt ra x < rankAt ra y →
    t.length ≤ x + m

/-- Rank `0` occurs only on an all-zero padded window (a raw NUL
character during the first iteration); refined ranks are positive. -/
def PadPos (t : Text) (m : Nat) (ra : List Nat) : Prop :=
  ∀ x, x < t.length → rankAt ra x = 0 → padTake t m x = List.replicate m 0

instance (t : Text) : Decidable (noNul t) := by unfold noNul; infer_instance

instance (t : Text) (m : Nat) (ra : List Nat) : Decidable (RankInv t m ra) := by
  unfold RankInv lexLt; infer_instance

instance (t : Text) (ra : List Nat) : Decidable (PosRanks t ra) := by
  unfold PosRanks; infer_instance

/-! ### Basic facts about the lexicographic comparison -/

theorem listCmp_eq_iff : ∀ {x y : List Nat}, listCmp x y = Ordering.eq ↔ x = y
  | [], [] => by simp [listCmp]
  | [], _ :: _ => by simp [listCmp]
  | _ :: _, [] => by simp [listCmp]
  | a :: xs, b :: ys => by
    simp only [listCmp]
    rcases Nat.lt_trichotomy a b with h | h | h
    · simp [h, Nat.ne_of_lt h]
    · simp [h, Nat.lt_irrefl, listCmp_eq_iff]
    · rw [if_neg (Nat.lt_asymm h), if_pos h]
      simp [Nat.ne_of_lt h |>.symm]

theorem listCmp_self (x : List Nat) : listCmp x x = Ordering.eq :=
  listCmp_eq_iff.mpr rfl

theorem listCmp_gt_iff_lt : ∀ {x y : List Nat},
    listCmp x y = Ordering.gt ↔ listCmp y x = Ordering.lt
  | [], [] => by simp [listCmp]
  | [], _ :: _ => by simp [listCmp]
  | _ :: _, [] => by simp [listCmp]
  | a :: xs, b :: ys => by
    simp only [listCmp]
    rcases Nat.lt_trichotomy a b with h | h | h
    · rw [if_pos h, if_neg (Nat.lt_asymm h), if_pos h]; simp
    · subst h; simp [Nat.lt_irrefl, listCmp_gt_iff_lt]
    · rw [if_neg (Nat.lt_asymm h), if_pos h, if_pos h]; simp

theorem listCmp_cases (x y : List Nat) :
    listCmp x y = Ordering.lt ∨ listCmp x y = Ordering.eq ∨ listCmp x y = Ordering.gt := by
  cases h : listCmp x y
  · exact Or.inl rfl
  · exact Or.inr (Or.inl rfl)
  · exact Or.inr (Or.inr rfl)

theorem lexLt_trans : ∀ {x y z : List Nat}, lexLt x y → lexLt y z → lexLt x z := by
  intro x
  induction x with
  | nil =>
    intro y z hxy hyz
    cases y with
    | nil => exact hyz
    | cons b ys =>
      cases z with
      | nil => simp [lexLt, listCmp] at hyz
      | cons c zs => simp [lexLt, listCmp]
  | cons a xs ih =>
    intro y z hxy hyz
    cases y with
    | nil => simp [lexLt, listCmp] at hxy
    | cons b ys =>
      cases z with
      | nil => simp [lexLt, listCmp] at hyz
      | cons c zs =>
        simp only [lexLt, listCmp] at hxy hyz ⊢
        rcases Nat.lt_trichotomy a b with h1 | h1 | h1
        · rcases Nat.lt_trichotomy b c with h2 | h2 | h2
          · simp [Nat.lt_trans h1 h2]
          · subst h2; simp [h1]
          · rw [if_neg (Nat.lt_asymm h2), if_pos h2] at hyz; exact absurd hyz (by simp)
        · subst h1
          rcases Nat.lt_trichotomy a c with h2 | h2 | h2
          · simp [h2]
          · subst h2
            simp only [Nat.lt_irrefl, if_false] at hxy hyz ⊢
            exact ih hxy hyz
          · rw [if_neg (Nat.lt_asymm h2), if_pos h2] at hyz; exact absurd hyz (by simp)
        · rw [if_neg (Nat.lt_asymm h1), if_pos h1] at hxy; exact absurd hxy (by simp)

theorem lexLe_iff {x y : List Nat} : lexLe x y ↔ lexLt x y ∨ x = y := by
  unfold lexLe lexLt
  rcases listCmp_cases x y with h | h | h
  · simp [h]
  · have := listCmp_eq_iff.mp h
    subst this
    simp [listCmp_self]
  · constructor
    · intro hc; exact absurd h hc
    · rintro (hlt | rfl)
      · rw [h] at hlt; exact absurd hlt (by simp)
      · rw [listCmp_self] at h; exact absurd h (by simp)

theorem lexLe_refl (x : List Nat) : lexLe x x := lexLe_iff.mpr (Or.inr rfl)

theorem lexLe_trans {x y z : List Nat} (h1 : lexLe x y) (h2 : lexLe y z) : lexLe x z := by
  rcases lexLe_iff.mp h1 with h1 | rfl
  · rcases lexLe_iff.mp h2 with h2 | rfl
    · exact lexLe_iff.mpr (Or.inl (lexLt_trans h1 h2))
    · exact lexLe_iff.mpr (Or.inl h1)
  · exact h2

theorem lexLt_of_lexLe_of_lexLt {x y z : List Nat} (h1 : lexLe x y) (h2 : lexLt y z) :
    lexLt x z := by
  rcases lexLe_iff.mp h1 with h1 | rfl
  · exact lexLt_trans h1 h2
  · exact h2

theorem lexLt_of_lexLt_of_lexLe {x y z : List Nat} (h1 : lexLt x y) (h2 : lexLe y z) :
    lexLt x z := by
  rcases lexLe_iff.mp h2 with h2 | rfl
  · exact lexLt_trans h1 h2
  · exact h1

theorem lexLt_asymm {x y : List Nat} (h : lexLt x y) : ¬ lexLt y x := by
  intro h2
  have := lexLt_trans h h2
  rw [lexLt, listCmp_self] at this
  exact absurd this (by simp)

theorem lexLt_irrefl (x : List Nat) : ¬ lexLt x x := by
  rw [lexLt, listCmp_self]; simp

theorem lexLe_total (x y : List Nat) : lexLe x y ∨ lexLe y x := by
  rcases listCmp_cases x y with h | h | h
  · exact Or.inl (lexLe_iff.mpr (Or.inl h))
  · exact Or.inl (lexLe_iff.mpr (Or.inr (listCmp_eq_iff.mp h)))
  · exact Or.inr (lexLe_iff.mpr (Or.inl (listCmp_gt_iff_lt.mp h)))

theorem lexLt_iff_not_lexLe {x y : List Nat} : lexLt x y ↔ ¬ lexLe y x := by
  constructor
  · intro h hle
    rcases lexLe_iff.mp hle with h2 | rfl
    · exact lexLt_asymm h h2
    · exact lexLt_irrefl _ h
  · intro h
    rcases listCmp_cases x y with h2 | h2 | h2
    · exact h2
    · exact absurd (lexLe_iff.mpr (Or.inr (listCmp_eq_iff.mp h2).symm)) h
    · exact absurd (lexLe_iff.mpr (Or.inl (listCmp_gt_iff_lt.mp h2))) h

/-! ### Comparison versus append and take -/

theorem listCmp_append_left : ∀ (x u v : List Nat),
    listCmp (x ++ u) (x ++ v) = listCmp u v
  | [], _, _ => rfl
  | a :: xs, u, v => by
    simp only [List.cons_append, listCmp, Nat.lt_irrefl, if_false]
    exact listCmp_append_left xs u v

/-- Comparing `a₁ ++ c₁` with `a₂ ++ c₂` is deciding on the `a` parts
first, provided a strictly shorter `a` part can only be followed by an
empty continuation (as is the case for truncated text blocks). -/
theorem listCmp_append_blocks : ∀ (a₁ a₂ c₁ c₂ : List Nat),
    (a₁.length < a₂.length → c₁ = []) → (a₂.length < a₁.length → c₂ = []) →
    listCmp (a₁ ++ c₁) (a₂ ++ c₂) = (listCmp a₁ a₂).then (listCmp c₁ c₂)
  | [], [], c₁, c₂, _, _ => by simp [listCmp, Ordering.then]
  | [], b :: a₂, c₁, c₂, h₁, _ => by
    rw [h₁ (by simp)]
    simp [listCmp, Ordering.then]
  | a :: a₁, [], c₁, c₂, _, h₂ => by
    rw [h₂ (by simp)]
    simp [listCmp, Ordering.then]
  | a :: a₁, b :: a₂, c₁, c₂, h₁, h₂ => by
    simp only [List.cons_append, listCmp]
    rcases Nat.lt_trichotomy a b with h | h | h
    · simp [h, Ordering.then]
    · subst h
      simp only [Nat.lt_irrefl, if_false]
      exact listCmp_append_blocks a₁ a₂ c₁ c₂
        (fun hl => h₁ (by simpa using Nat.succ_lt_succ hl))
        (fun hl => h₂ (by simpa using Nat.succ_lt_succ hl))
    · rw [if_neg (Nat.lt_asymm h), if_pos h, if_neg (Nat.lt_asymm h), if_pos h]
      simp [Ordering.then]

/-- A strict comparison of equal-length prefixes extends to the full lists. -/
theorem lexLt_of_take_lexLt : ∀ (m : Nat) {x y : List Nat},
    lexLt (x.take m) (y.take m) → lexLt x y := by
  intro m
  induction m with
  | zero => intro x y h; simp [lexLt, listCmp] at h
  | succ m ih =>
    intro x y h
    cases x with
    | nil =>
      cases y with
      | nil => simpa [lexLt, listCmp] using h
      | cons c zs => simp [lexLt, listCmp]
    | cons a xs =>
      cases y with
      | nil => simp [lexLt, listCmp, List.take] at h
      | cons b ys =>
        simp only [List.take_succ_cons, lexLt, listCmp] at h ⊢
        rcases Nat.lt_trichotomy a b with h1 | h1 | h1
        · simp [h1]
        · subst h1
          simp only [Nat.lt_irrefl, if_false] at h ⊢
          exact ih h
        · rw [if_neg (Nat.lt_asymm h1), if_pos h1] at h ⊢
          exact h

/-- Weak comparison transfers from full lists to their prefixes. -/
theorem lexLe_take_of_lexLe (m : Nat) {x y : List Nat} (h : lexLe x y) :
    lexLe (x.take m) (y.take m) := by
  intro hgt
  exact h (listCmp_gt_iff_lt.mpr (lexLt_of_take_lexLt m (listCmp_gt_iff_lt.mp hgt)))

/-! ### Longest common prefixes -/

theorem lcpLen_le_left : ∀ (x y : List Nat), lcpLen x y ≤ x.length
  | [], _ => by simp [lcpLen]
  | _ :: _, [] => by simp [lcpLen]
  | a :: xs, b :: ys => by
    by_cases h : a = b
    · simpa [lcpLen, h] using lcpLen_le_left xs ys
    · simp [lcpLen, h]

theorem lcpLen_le_right : ∀ (x y : List Nat), lcpLen x y ≤ y.length
  | [], _ => by simp [lcpLen]
  | _ :: _, [] => by simp [lcpLen]
  | a :: xs, b :: ys => by
    by_cases h : a = b
    · simpa [lcpLen, h] using lcpLen_le_right xs ys
    · simp [lcpLen, h]

theorem lcpLen_comm : ∀ (x y : List Nat), lcpLen x y = lcpLen y x
  | [], [] => rfl
  | [], _ :: _ => rfl
  | _ :: _, [] => rfl
  | a :: xs, b :: ys => by
    by_cases h : a = b
    · simp [lcpLen, h, lcpLen_comm xs ys]
    · have h2 : ¬ b = a := fun hc => h hc.symm
      simp [lcpLen, h, h2]

/-- The two lists agree position by position strictly below their `lcpLen`. -/
theorem getD_eq_of_lt_lcpLen : ∀ {x y : List Nat} {u : Nat}, u < lcpLen x y →
    x.getD u 0 = y.getD u 0
  | a :: xs, b :: ys, u, h => by
    by_cases hab : a = b
    · cases u with
      | zero => simpa using hab
      | succ u =>
        simp only [lcpLen, hab, if_true] at h
        simpa using getD_eq_of_lt_lcpLen (Nat.lt_of_succ_lt_succ h)
    · simp [lcpLen, hab] at h
  | [], _, u, h => by simp [lcpLen] at h
  | _ :: _, [], u, h => by simp [lcpLen] at h

/-- At position `lcpLen` either one of the lists has ended or the
characters differ. -/
theorem lcpLen_stop : ∀ (x y : List Nat),
    lcpLen x y = x.length ∨ lcpLen x y = y.length ∨
      x.getD (lcpLen x y) 0 ≠ y.getD (lcpLen x y) 0
  | [], _ => Or.inl rfl
  | _ :: _, [] => Or.inr (Or.inl rfl)
  | a :: xs, b :: ys => by
    by_cases hab : a = b
    · rcases lcpLen_stop xs ys with h | h | h
      · exact Or.inl (by simp [lcpLen, hab, h])
      · exact Or.inr (Or.inl (by simp [lcpLen, hab, h]))
      · exact Or.inr (Or.inr (by simpa [lcpLen, hab] using h))
    · exact Or.inr (Or.inr (by simpa [lcpLen, hab] using hab))

/-- `lcpLen` is the length of the longest common prefix: the prefixes of
that length coincide. -/
theorem take_lcpLen_eq : ∀ (x y : List Nat), x.take (lcpLen x y) = y.take (lcpLen x y)
  | [], _ => by simp [lcpLen]
  | _ :: _, [] => by simp [lcpLen]
  | a :: xs, b :: ys => by
    by_cases hab : a = b
    · simp [lcpLen, hab, take_lcpLen_eq xs ys]
    · simp [lcpLen, hab]

/-- Lists closer in lexicographic order share at least as long a common
prefix: if `x ≤ y ≤ z` then `lcp(x, z) ≤ lcp(y, z)`. -/
theorem lcpLen_le_of_between : ∀ {x y z : List Nat}, lexLe x y → lexLe y z →
    lcpLen x z ≤ lcpLen y z
  | [], _, _, _, _ => by simp [lcpLen]
  | _ :: _, _, [], _, _ => by simp [lcpLen]
  | a :: xs, y, c :: zs, hxy, hyz => by
    by_cases hac : a = c
    · subst hac
      cases y with
      | nil =>
        exact absurd (show listCmp (a :: xs) [] = Ordering.gt from rfl) hxy
      | cons b ys =>
        have hab : a ≤ b := by
          by_contra hc
          have hba : b < a := by omega
          simp [lexLe, listCmp, hba, Nat.lt_asymm hba] at hxy
        have hba : b ≤ a := by
          by_contra hc
          have hab2 : a < b := by omega
          simp [lexLe, listCmp, hab2, Nat.lt_asymm hab2] at hyz
        have : b = a := Nat.le_antisymm hba hab
        subst this
        simp only [lexLe, listCmp, Nat.lt_irrefl, if_false] at hxy hyz
        simpa [lcpLen] using lcpLen_le_of_between (x := xs) hxy hyz
    · simp [lcpLen, hac]

/-- Two different lists compare strictly in one of the two directions. -/
theorem lexLt_or_lexLt_of_ne {x y : List Nat} (h : x ≠ y) : lexLt x y ∨ lexLt y x := by
  rcases listCmp_cases x y with hc | hc | hc
  · exact Or.inl hc
  · exact absurd (listCmp_eq_iff.mp hc) h
  · exact Or.inr (listCmp_gt_iff_lt.mp hc)

/-! ### Suffix-block decomposition -/

theorem takeN_length (t : Text) (m i : Nat) :
    (takeN t m i).length = min m (t.length - i) := by
  simp [takeN]

/-- The first `2k` characters of `suffix(i)` split into the first `k`
and the `k` starting at `i + k`. -/
theorem takeN_two (t : Text) (k i : Nat) :
    takeN t (2 * k) i = takeN t k i ++ takeN t k (i + k) := by
  have h2 : 2 * k = k + k := by omega
  rw [takeN, h2, List.take_add]
  congr 1
  rw [takeN, List.drop_drop, Nat.add_comm]

/-- When the first block is short the text has ended: the second block
is empty. -/
theorem takeN_snd_empty {t : Text} {k i : Nat}
    (h : (takeN t k i).length < k) : takeN t k (i + k) = [] := by
  rw [takeN_length] at h
  have : t.length - i < k := by omega
  have hd : t.drop (i + k) = [] := List.drop_eq_nil_of_le (by omega)
  simp [takeN, hd]

theorem takeN_snd_empty_ge {t : Text} {k i : Nat} (h : t.length ≤ i + k) :
    takeN t k (i + k) = [] := by
  simp [takeN, List.drop_eq_nil_of_le h]

theorem takeN_ne_empty {t : Text} {k i : Nat} (hk : 0 < k) (hi : i < t.length) :
    takeN t k i ≠ [] := by
  have : (takeN t k i).length = min k (t.length - i) := takeN_length t k i
  intro hc
  rw [hc] at this
  simp at this
  omega

/-- Suffix decomposition: peel off the first character. -/
theorem drop_eq_cons {t : Text} {i : Nat} (hi : i < t.length) :
    t.drop i = t.getD i 0 :: t.drop (i + 1) := by
  rw [List.getD_eq_getElem t 0 hi]
  exact List.drop_eq_getElem_cons hi

/-- Distinct positions give distinct suffixes (their lengths differ). -/
theorem drop_ne_of_ne {t : Text} {i j : Nat} (hi : i < t.length) (hj : j < t.length)
    (hij : i ≠ j) : t.drop i ≠ t.drop j := by
  intro hc
  have := congrArg List.length hc
  simp only [List.length_drop] at this
  omega

/-! ### Rank invariant: derived forms -/

theorem rankInv_eq_iff {t : Text} {m : Nat} {ra : List Nat} (hinv : RankInv t m ra)
    {i j : Nat} (hi : i < t.length) (hj : j < t.length) :
    rankAt ra i = rankAt ra j ↔ takeN t m i = takeN t m j := by
  constructor
  · intro h
    by_contra hne
    rcases lexLt_or_lexLt_of_ne hne with hlt | hlt
    · have := (hinv i hi j hj).mpr hlt; omega
    · have := (hinv j hj i hi).mpr hlt; omega
  · intro h
    have h1 : ¬ rankAt ra i < rankAt ra j := by
      rw [hinv i hi j hj, h]; exact lexLt_irrefl _
    have h2 : ¬ rankAt ra j < rankAt ra i := by
      rw [hinv j hj i hi, h]; exact lexLt_irrefl _
    omega

/-- `cmp` decides the strict composite-key order. -/
theorem cmp_iff_pairLt (t : Text) (ra : List Nat) (k i j : Nat) :
    cmp t ra k i j = true ↔ pairLt (keyOf t ra k i) (keyOf t ra k j) := by
  simp only [cmp, keyOf, pairLt, Bool.or_eq_true, Bool.and_eq_true, decide_eq_true_eq,
    beq_iff_eq]

theorem pairLt_trichotomy (a b : Nat × Nat) : pairLt a b ∨ a = b ∨ pairLt b a := by
  rcases a with ⟨a1, a2⟩
  rcases b with ⟨b1, b2⟩
  simp only [pairLt, Prod.mk.injEq]
  omega

theorem pairLt_asymm {a b : Nat × Nat} (h : pairLt a b) : ¬ pairLt b a := by
  rcases a with ⟨a1, a2⟩; rcases b with ⟨b1, b2⟩
  simp only [pairLt] at *
  omega

theorem pairLt_trans {a b c : Nat × Nat} (h1 : pairLt a b) (h2 : pairLt b c) : pairLt a c := by
  rcases a with ⟨a1, a2⟩; rcases b with ⟨b1, b2⟩; rcases c with ⟨c1, c2⟩
  simp only [pairLt] at *
  omega

theorem lexLt_nil_of_ne {y : List Nat} (h : y ≠ []) : lexLt [] y := by
  cases y with
  | nil => exact absurd rfl h
  | cons c cs => simp [lexLt, listCmp]

theorem not_lexLt_nil (x : List Nat) : ¬ lexLt x [] := by
  cases x with
  | nil => exact lexLt_irrefl []
  | cons a xs => simp [lexLt, listCmp]

/-- Central step lemma: at doubling step `k`, the composite key order of
positions `i, j` is exactly the lexicographic order of the first `2k`
characters of their suffixes. -/
theorem keyLt_iff_take2 {t : Text} {ra : List Nat} {k : Nat} (hk : 0 < k)
    (hinv : RankInv t k ra) (hpos : PosRanks t ra)
    {i j : Nat} (hi : i < t.length) (hj : j < t.length) :
    pairLt (keyOf t ra k i) (keyOf t ra k j) ↔
      lexLt (takeN t (2 * k) i) (takeN t (2 * k) j) := by
  have hlen1 : (takeN t k i).length ≤ k := by rw [takeN_length]; omega
  have hlen2 : (takeN t k j).length ≤ k := by rw [takeN_length]; omega
  have hblocks := listCmp_append_blocks (takeN t k i) (takeN t k j)
    (takeN t k (i + k)) (takeN t k (j + k))
    (fun h => takeN_snd_empty (by omega))
    (fun h => takeN_snd_empty (by omega))
  rw [takeN_two, takeN_two, lexLt, hblocks]
  simp only [keyOf, pairLt]
  constructor
  · rintro (h1 | ⟨h1, h2⟩)
    · rw [(hinv i hi j hj).mp h1]; rfl
    · have heq : takeN t k i = takeN t k j := (rankInv_eq_iff hinv hi hj).mp h1
      rw [listCmp_eq_iff.mpr heq]
      show listCmp (takeN t k (i + k)) (takeN t k (j + k)) = Ordering.lt
      by_cases hik : i + k < t.length
      · by_cases hjk : j + k < t.length
        · rw [if_pos hik, if_pos hjk] at h2
          exact (hinv _ hik _ hjk).mp h2
        · rw [if_pos hik, if_neg hjk] at h2
          exact absurd h2 (by omega)
      · by_cases hjk : j + k < t.length
        · rw [takeN_snd_empty_ge (by omega)]
          exact lexLt_nil_of_ne (takeN_ne_empty hk hjk)
        · rw [if_neg hik, if_neg hjk] at h2
          exact absurd h2 (by omega)
  · intro h
    rcases listCmp_cases (takeN t k i) (takeN t k j) with hc | hc | hc
    · exact Or.inl ((hinv i hi j hj).mpr hc)
    · right
      have heq : takeN t k i = takeN t k j := listCmp_eq_iff.mp hc
      refine ⟨(rankInv_eq_iff hinv hi hj).mpr heq, ?_⟩
      rw [hc] at h
      replace h : listCmp (takeN t k (i + k)) (takeN t k (j + k)) = Ordering.lt := h
      by_cases hik : i + k < t.length
      · by_cases hjk : j + k < t.length
        · rw [if_pos hik, if_pos hjk]
          exact (hinv _ hik _ hjk).mpr h
        · rw [show takeN t k (j + k) = [] from takeN_snd_empty_ge (by omega)] at h
          exact absurd (show lexLt (takeN t k (i + k)) [] from h) (not_lexLt_nil _)
      · by_cases hjk : j + k < t.length
        · rw [if_neg hik, if_pos hjk]
          have := hpos _ hjk
          omega
        · rw [takeN_snd_empty_ge (show t.length ≤ i + k by omega),
            takeN_snd_empty_ge (show t.length ≤ j + k by omega)] at h
          exact absurd h (lexLt_irrefl [])
    · rw [hc] at h
      replace h : Ordering.gt = Ordering.lt := h
      exact absurd h (by simp)

/-- Companion to `keyLt_iff_take2`: key equality is equality of the first
`2k` characters. -/
theorem keyEq_iff_take2 {t : Text} {ra : List Nat} {k : Nat} (hk : 0 < k)
    (hinv : RankInv t k ra) (hpos : PosRanks t ra)
    {i j : Nat} (hi : i < t.length) (hj : j < t.length) :
    keyOf t ra k i = keyOf t ra k j ↔ takeN t (2 * k) i = takeN t (2 * k) j := by
  constructor
  · intro h
    by_contra hne
    rcases lexLt_or_lexLt_of_ne hne with hlt | hlt
    · have := (keyLt_iff_take2 hk hinv hpos hi hj).mpr hlt
      rw [h] at this
      rcases pairLt_trichotomy (keyOf t ra k j) (keyOf t ra k j) with h2 | h2 | h2
      · exact pairLt_asymm this h2
      · exact pairLt_asymm this this
      · exact pairLt_asymm this h2
    · have := (keyLt_iff_take2 hk hinv hpos hj hi).mpr hlt
      rw [h] at this
      exact pairLt_asymm this this
  · intro h
    rcases pairLt_trichotomy (keyOf t ra k i) (keyOf t ra k j) with h2 | h2 | h2
    · have := (keyLt_iff_take2 hk hinv hpos hi hj).mp h2
      rw [h] at this
      exact absurd this (lexLt_irrefl _)
    · exact h2
    · have := (keyLt_iff_take2 hk hinv hpos hj hi).mp h2
      rw [h] at this
      exact absurd this (lexLt_irrefl _)

/-! ### The rank-refinement walk -/

theorem pairLt_irrefl (a : Nat × Nat) : ¬ pairLt a a := by
  rcases a with ⟨a1, a2⟩
  simp only [pairLt]
  omega

/-- Build `Pairwise` from consecutive relations and transitivity. -/
theorem pairwise_of_consec {R : Nat → Nat → Prop} {l : List Nat}
    (h : ∀ u, u + 1 < l.length → R (l.getD u 0) (l.getD (u + 1) 0))
    (htrans : ∀ {a b c : Nat}, R a b → R b c → R a c) :
    l.Pairwise R := by
  rw [List.pairwise_iff_getElem]
  intro u v hu hv huv
  have key : ∀ d v2, v2 < l.length → u < v2 → v2 ≤ u + d → R (l.getD u 0) (l.getD v2 0) := by
    intro d
    induction d with
    | zero => intro v2 _ h1 h2; omega
    | succ d ih =>
      intro v2 hv2 h1 h2
      rcases Nat.lt_or_ge (u + 1) v2 with h3 | h3
      · have h4 : v2 - 1 + 1 = v2 := by omega
        have h5 := h (v2 - 1) (by omega)
        rw [h4] at h5
        exact htrans (ih (v2 - 1) (by omega) (by omega) (by omega)) h5
      · have : v2 = u + 1 := by omega
        subst this
        exact h u hv2
  have := key (v - u) v hv huv (by omega)
  rwa [List.getD_eq_getElem l 0 hu, List.getD_eq_getElem l 0 hv] at this

theorem rbList_length (t : Text) (ra : List Nat) (k : Nat) :
    ∀ (l : List Nat) (r : Nat), (rbList t ra k l r).length = l.length
  | [], _ => rfl
  | [_], _ => rfl
  | _ :: b :: rest, r => by
    simp [rbList, rbList_length t ra k (b :: rest)]

theorem rbList_head (t : Text) (ra : List Nat) (k : Nat) (a : Nat) (l : List Nat) (r : Nat) :
    (rbList t ra k (a :: l) r).getD 0 0 = r := by
  cases l <;> rfl

theorem rbList_consec (t : Text) (ra : List Nat) (k : Nat) :
    ∀ (l : List Nat) (r u : Nat), u + 1 < l.length →
      (rbList t ra k l r).getD (u + 1) 0 =
        (rbList t ra k l r).getD u 0 +
          (if cmp t ra k (l.getD u 0) (l.getD (u + 1) 0) then 1 else 0)
  | [], _, _, h => by simp at h
  | [_], _, _, h => by simp at h
  | a :: b :: rest, r, 0, _ => by
    simp only [rbList, List.getD_cons_succ, List.getD_cons_zero]
    rw [rbList_head]
  | a :: b :: rest, r, u + 1, h => by
    simp only [rbList, List.getD_cons_succ]
    exact rbList_consec t ra k (b :: rest) _ u (by simpa using h)

theorem rbList_ge (t : Text) (ra : List Nat) (k : Nat) :
    ∀ (l : List Nat) (r u : Nat), u < l.length → r ≤ (rbList t ra k l r).getD u 0
  | [], _, _, h => by simp at h
  | [_], _, 0, _ => by simp [rbList]
  | [_], _, _ + 1, h => by simp at h
  | a :: b :: rest, r, 0, _ => by rw [rbList_head]
  | a :: b :: rest, r, u + 1, h => by
    have ih := rbList_ge t ra k (b :: rest)
      (r + if cmp t ra k a b then 1 else 0) u (by simpa using h)
    simp only [rbList, List.getD_cons_succ]
    omega

/-- Ranks increase by at most one per slot. -/
theorem rbList_le_add (t : Text) (ra : List Nat) (k : Nat) (l : List Nat) (r : Nat) :
    ∀ u v, u ≤ v → v < l.length →
      (rbList t ra k l r).getD v 0 ≤ (rbList t ra k l r).getD u 0 + (v - u) := by
  intro u v
  induction v with
  | zero => intro h1 _; interval_cases u; simp
  | succ v ih =>
    intro h1 h2
    rcases Nat.lt_or_ge u (v + 1) with h3 | h3
    · have step := rbList_consec t ra k l r v h2
      have := ih (by omega) (by omega)
      rw [step]
      split <;> omega
    · have : u = v + 1 := by omega
      subst this
      simp

theorem rbList_mono (t : Text) (ra : List Nat) (k : Nat) (l : List Nat) (r : Nat) :
    ∀ u v, u ≤ v → v < l.length →
      (rbList t ra k l r).getD u 0 ≤ (rbList t ra k l r).getD v 0 := by
  intro u v
  induction v with
  | zero => intro h1 _; interval_cases u; simp
  | succ v ih =>
    intro h1 h2
    rcases Nat.lt_or_ge u (v + 1) with h3 | h3
    · have step := rbList_consec t ra k l r v h2
      have := ih (by omega) (by omega)
      rw [step]
      split <;> omega
    · have : u = v + 1 := by omega
      subst this
      exact Nat.le_refl _

/-- In a key-sorted list, equal keys at two slots force equal refined
ranks (all consecutive keys in between are equal, so no increment fires). -/
theorem rb_eq_of_key_eq (t : Text) (ra : List Nat) (k : Nat) (l : List Nat) (r : Nat)
    (hs : ∀ u v : Nat, u < v → v < l.length →
      ¬ pairLt (keyOf t ra k (l.getD v 0)) (keyOf t ra k (l.getD u 0))) (u : Nat) :
    ∀ v, u ≤ v → v < l.length →
      keyOf t ra k (l.getD u 0) = keyOf t ra k (l.getD v 0) →
      (rbList t ra k l r).getD u 0 = (rbList t ra k l r).getD v 0 := by
  intro v
  induction v with
  | zero => intro h1 _ _; interval_cases u; rfl
  | succ v ih =>
    intro h1 h2 hkey
    rcases Nat.lt_or_ge u (v + 1) with h3 | h3
    · have hkuv : keyOf t ra k (l.getD u 0) = keyOf t ra k (l.getD v 0) := by
        rcases Nat.lt_or_ge u v with h4 | h4
        · rcases pairLt_trichotomy (keyOf t ra k (l.getD u 0)) (keyOf t ra k (l.getD v 0))
            with h5 | h5 | h5
          · rw [hkey] at h5
            exact absurd h5 (hs v (v + 1) (by omega) h2)
          · exact h5
          · exact absurd h5 (hs u v h4 (by omega))
        · have : u = v := by omega
          subst this; rfl
      have hstep := rbList_consec t ra k l r v h2
      have hnocmp : cmp t ra k (l.getD v 0) (l.getD (v + 1) 0) = false := by
        rw [← Bool.not_eq_true, cmp_iff_pairLt]
        rw [← hkuv, hkey]
        exact pairLt_irrefl _
      rw [hstep, hnocmp, if_neg (by simp), ih (by omega) (by omega) hkuv]
      omega
    · have : u = v + 1 := by omega
      subst this; rfl

/-- In a key-sorted list, a strictly larger key at a later slot forces a
strictly larger refined rank. -/
theorem rb_lt_of_key_lt (t : Text) (ra : List Nat) (k : Nat) (l : List Nat) (r : Nat)
    (hs : ∀ u v : Nat, u < v → v < l.length →
      ¬ pairLt (keyOf t ra k (l.getD v 0)) (keyOf t ra k (l.getD u 0))) (u : Nat) :
    ∀ v, u < v → v < l.length →
      pairLt (keyOf t ra k (l.getD u 0)) (keyOf t ra k (l.getD v 0)) →
      (rbList t ra k l r).getD u 0 < (rbList t ra k l r).getD v 0 := by
  intro v
  induction v with
  | zero => intro h1 _ _; omega
  | succ v ih =>
    intro h1 h2 hkey
    have hstep := rbList_consec t ra k l r v h2
    rcases Nat.lt_or_ge u v with h3 | h3
    · rcases pairLt_trichotomy (keyOf t ra k (l.getD u 0)) (keyOf t ra k (l.getD v 0))
        with h5 | h5 | h5
      · have := ih h3 (by omega) h5
        rw [hstep]
        split <;> omega
      · have heq := rb_eq_of_key_eq t ra k l r hs u v (by omega) (by omega) h5
        have hc : cmp t ra k (l.getD v 0) (l.getD (v + 1) 0) = true := by
          rw [cmp_iff_pairLt, ← h5]
          exact hkey
        rw [hstep, hc, if_pos rfl, ← heq]
        omega
      · exact absurd h5 (hs u v h3 (by omega))
    · have : u = v := by omega
      subst this
      have hc : cmp t ra k (l.getD u 0) (l.getD (u + 1) 0) = true := by
        rw [cmp_iff_pairLt]; exact hkey
      rw [hstep, hc, if_pos rfl]
      omega

/-- Characterization of the refined ranks in a key-sorted list. -/
theorem rb_lt_iff (t : Text) (ra : List Nat) (k : Nat) (l : List Nat) (r : Nat)
    (hs : ∀ u v : Nat, u < v → v < l.length →
      ¬ pairLt (keyOf t ra k (l.getD v 0)) (keyOf t ra k (l.getD u 0)))
    (u v : Nat) (hu : u < l.length) (hv : v < l.length) :
    ((rbList t ra k l r).getD u 0 < (rbList t ra k l r).getD v 0 ↔
      pairLt (keyOf t ra k (l.getD u 0)) (keyOf t ra k (l.getD v 0))) := by
  rcases Nat.lt_trichotomy u v with huv | huv | huv
  · constructor
    · intro hlt
      rcases pairLt_trichotomy (keyOf t ra k (l.getD u 0)) (keyOf t ra k (l.getD v 0))
        with h5 | h5 | h5
      · exact h5
      · rw [rb_eq_of_key_eq t ra k l r hs u v (by omega) hv h5] at hlt
        omega
      · exact absurd h5 (hs u v huv hv)
    · exact rb_lt_of_key_lt t ra k l r hs u v huv hv
  · subst huv
    simp only [Nat.lt_irrefl, false_iff]
    exact pairLt_irrefl _
  · constructor
    · intro hlt
      have := rbList_mono t ra k l r v u (by omega) hu
      omega
    · intro hkey
      exact absurd hkey (hs v u huv hu)

/-! ### One doubling iteration -/

theorem saLe_total (t : Text) (ra : List Nat) (k : Nat) (i j : Nat) :
    saLe t ra k i j ∨ saLe t ra k j i := by
  unfold saLe
  by_cases h1 : cmp t ra k j i = true
  · by_cases h2 : cmp t ra k i j = true
    · exact absurd ((cmp_iff_pairLt t ra k j i).mp h1)
        (pairLt_asymm ((cmp_iff_pairLt t ra k i j).mp h2))
    · exact Or.inr (by simpa using h2)
  · exact Or.inl (by simpa using h1)

theorem saLe_trans (t : Text) (ra : List Nat) (k : Nat) (i j m : Nat)
    (h1 : saLe t ra k i j) (h2 : saLe t ra k j m) : saLe t ra k i m := by
  unfold saLe at *
  rw [← Bool.not_eq_true, cmp_iff_pairLt] at h1 h2 ⊢
  intro hmi
  rcases pairLt_trichotomy (keyOf t ra k i) (keyOf t ra k j) with h3 | h3 | h3
  · exact h2 (pairLt_trans hmi h3)
  · rw [h3] at hmi; exact h2 hmi
  · exact h1 h3

/-- Everything established by one iteration of the doubling loop: the
sorted array is still a permutation, the refined ranks realise the rank
invariant at prefix length `2k` with all ranks positive, the first slot
gets rank exactly 1, the array is sorted by the first `2k` characters,
and if the refined rank of the last slot is `n` the sort is strict. -/
theorem buildStep_master {t : Text} {sa ra : List Nat} {k : Nat} (hk : 0 < k)
    (hinv : RankInv t k ra) (hpos : PosRanks t ra)
    (hperm : sa.Perm (List.range t.length)) :
    (buildStep t sa ra k).1.Perm (List.range t.length) ∧
    RankInv t (2 * k) (buildStep t sa ra k).2 ∧
    PosRanks t (buildStep t sa ra k).2 ∧
    (0 < t.length →
      (buildStep t sa ra k).1.getD 0 0 < t.length ∧
      rankAt (buildStep t sa ra k).2 ((buildStep t sa ra k).1.getD 0 0) = 1) ∧
    List.Pairwise (fun a b => lexLe (takeN t (2 * k) a) (takeN t (2 * k) b))
      (buildStep t sa ra k).1 ∧
    (rankAt (buildStep t sa ra k).2
        ((buildStep t sa ra k).1.getD (t.length - 1) 0) = t.length →
      List.Pairwise (fun a b => lexLt (takeN t (2 * k) a) (takeN t (2 * k) b))
        (buildStep t sa ra k).1) := by
  set n := t.length with hn
  set srt := sa.insertionSort (saLe t ra k) with hsrt
  set rb := rbList t ra k srt 1 with hrb
  have hstep1 : (buildStep t sa ra k).1 = srt := rfl
  have hstep2 : (buildStep t sa ra k).2 = newRa t srt rb := rfl
  have hperm2 : srt.Perm (List.range n) := (List.perm_insertionSort _ sa).trans hperm
  have hlen : srt.length = n := by
    rw [hperm2.length_eq, List.length_range]
  have hnodup : srt.Nodup := hperm2.nodup_iff.mpr (List.nodup_range n)
  have hmem : ∀ x ∈ srt, x < n := by
    intro x hx
    exact List.mem_range.mp (hperm2.mem_iff.mp hx)
  have hsorted : srt.Pairwise (saLe t ra k) :=
    @List.sorted_insertionSort _ (saLe t ra k) _ ⟨saLe_total t ra k⟩
      ⟨saLe_trans t ra k⟩ sa
  have hgd_lt : ∀ u, u < srt.length → srt.getD u 0 < n := by
    intro u hu
    rw [List.getD_eq_getElem srt 0 hu]
    exact hmem _ (List.getElem_mem hu)
  have hs : ∀ u v : Nat, u < v → v < srt.length →
      ¬ pairLt (keyOf t ra k (srt.getD v 0)) (keyOf t ra k (srt.getD u 0)) := by
    intro u v huv hv
    have hu : u < srt.length := by omega
    have hps := List.pairwise_iff_getElem.mp hsorted u v hu hv huv
    rw [List.getD_eq_getElem srt 0 hu, List.getD_eq_getElem srt 0 hv]
    rw [← cmp_iff_pairLt]
    simpa [saLe] using hps
  have hidx_lt : ∀ i, i < n → srt.indexOf i < srt.length := by
    intro i hi
    exact List.indexOf_lt_length.mpr (hperm2.mem_iff.mpr (List.mem_range.mpr hi))
  have hidx_getd : ∀ u, u < srt.length → srt.indexOf (srt.getD u 0) = u := by
    intro u hu
    rw [List.getD_eq_getElem srt 0 hu]
    exact List.indexOf_getElem hnodup u hu
  have hgetd_idx : ∀ i, i < n → srt.getD (srt.indexOf i) 0 = i := by
    intro i hi
    rw [List.getD_eq_getElem srt 0 (hidx_lt i hi)]
    exact List.getElem_indexOf (hidx_lt i hi)
  have hra2 : ∀ i, i < n → rankAt (newRa t srt rb) i = rb.getD (srt.indexOf i) 0 := by
    intro i hi
    have hlenmap : i < ((List.range n).map
        (fun p => rb.getD (srt.indexOf p) 0)).length := by
      simpa using hi
    rw [rankAt, newRa, ← hn, List.getD_eq_getElem _ 0 hlenmap, List.getElem_map,
      List.getElem_range]
  refine ⟨?_, ?_, ?_, ?_, ?_, ?_⟩
  · rw [hstep1]; exact hperm2
  · -- rank invariant at 2k
    rw [hstep2]
    intro i hi j hj
    rw [hra2 i hi, hra2 j hj]
    have := rb_lt_iff t ra k srt 1 hs (srt.indexOf i) (srt.indexOf j)
      (hidx_lt i hi) (hidx_lt j hj)
    rw [hgetd_idx i hi, hgetd_idx j hj] at this
    rw [this]
    exact keyLt_iff_take2 hk hinv hpos hi hj
  · -- positive ranks
    rw [hstep2]
    intro i hi
    rw [hra2 i hi]
    exact rbList_ge t ra k srt 1 _ (hidx_lt i hi)
  · -- first slot has rank 1
    intro hn0
    have h0 : 0 < srt.length := by omega
    have hfst : srt.getD 0 0 < n := hgd_lt 0 h0
    refine ⟨by rw [hstep1]; exact hfst, ?_⟩
    rw [hstep1, hstep2, hra2 _ hfst, hidx_getd 0 h0]
    cases hc : srt with
    | nil => rw [hc] at h0; simp at h0
    | cons a l => rw [hrb, hc]; exact rbList_head t ra k a l 1
  · -- sorted by the first 2k characters
    rw [hstep1]
    refine hsorted.imp_of_mem ?_
    intro a b ha hb hle
    have ha2 : a < n := hmem a ha
    have hb2 : b < n := hmem b hb
    have hnotlt : ¬ pairLt (keyOf t ra k b) (keyOf t ra k a) := by
      rw [← cmp_iff_pairLt]
      simpa [saLe] using hle
    rcases pairLt_trichotomy (keyOf t ra k a) (keyOf t ra k b) with h3 | h3 | h3
    · exact lexLe_iff.mpr (Or.inl ((keyLt_iff_take2 hk hinv hpos ha2 hb2).mp h3))
    · exact lexLe_iff.mpr (Or.inr ((keyEq_iff_take2 hk hinv hpos ha2 hb2).mp h3))
    · exact absurd h3 hnotlt
  · -- early-exit condition forces a strict sort
    intro hbreak
    rw [hstep1, hstep2] at hbreak
    rw [hstep1]
    rcases Nat.eq_zero_or_pos n with hn0 | hn0
    · have : srt = [] := List.length_eq_zero.mp (by omega)
      rw [this]
      exact List.Pairwise.nil
    have hlast : srt.getD (n - 1) 0 < n := hgd_lt (n - 1) (by omega)
    rw [hra2 _ hlast, hidx_getd (n - 1) (by omega)] at hbreak
    have hhead : rb.getD 0 0 = 1 := by
      cases hc : srt with
      | nil => rw [hc] at hlen; simp at hlen; omega
      | cons a l => rw [hrb, hc]; exact rbList_head t ra k a l 1
    have hallinc : ∀ u, u + 1 < srt.length →
        cmp t ra k (srt.getD u 0) (srt.getD (u + 1) 0) = true := by
      intro w hw
      by_contra hcw
      have hcw2 : cmp t ra k (srt.getD w 0) (srt.getD (w + 1) 0) = false := by
        simpa using hcw
      have hstepw0 := rbList_consec t ra k srt 1 w hw
      rw [hcw2] at hstepw0
      simp only [if_neg (by simp : ¬ (false = true))] at hstepw0
      have hstepw : rb.getD (w + 1) 0 = rb.getD w 0 + 0 := hstepw0
      have hw0 : rb.getD w 0 ≤ rb.getD 0 0 + w :=
        rbList_le_add t ra k srt 1 0 w (by omega) (by omega)
      have hwn : rb.getD (n - 1) 0 ≤ rb.getD (w + 1) 0 + (n - 1 - (w + 1)) :=
        rbList_le_add t ra k srt 1 (w + 1) (n - 1) (by omega) (by omega)
      rw [hstepw] at hwn
      rw [hhead] at hw0
      omega
    have hconsec : ∀ u, u + 1 < srt.length →
        lexLt (takeN t (2 * k) (srt.getD u 0)) (takeN t (2 * k) (srt.getD (u + 1) 0)) := by
      intro u hu
      have h1 := (cmp_iff_pairLt t ra k _ _).mp (hallinc u hu)
      exact (keyLt_iff_take2 hk hinv hpos (hgd_lt u (by omega)) (hgd_lt (u + 1) hu)).mp h1
    exact pairwise_of_consec hconsec (fun hab hbc => lexLt_trans hab hbc)

/-! ### The doubling loop -/

theorem takeN_all {t : Text} {m i : Nat} (h : t.length ≤ m + i) :
    takeN t m i = t.drop i := by
  apply List.take_of_length_le
  simp only [List.length_drop]
  omega

theorem lexLt_single_iff {a b : Nat} : lexLt [a] [b] ↔ a < b := by
  unfold lexLt listCmp
  split_ifs with h1 h2
  · simp [h1]
  · constructor
    · intro hc; exact absurd hc (by simp)
    · intro hab; exact absurd hab (by omega)
  · constructor
    · intro hc; exact absurd hc (by simp [listCmp])
    · intro hab; exact absurd hab (by omega)

/-- The initial rank array (the character codes themselves) satisfies the
rank invariant at prefix length 1. -/
theorem rankInv_init (t : Text) : RankInv t 1 t := by
  intro i hi j hj
  have hdi : takeN t 1 i = [t.getD i 0] := by
    rw [takeN, drop_eq_cons hi, List.take_succ_cons, List.take_zero]
  have hdj : takeN t 1 j = [t.getD j 0] := by
    rw [takeN, drop_eq_cons hj, List.take_succ_cons, List.take_zero]
  rw [hdi, hdj, lexLt_single_iff]
  exact Iff.rfl

theorem posRanks_init {t : Text} (h : noNul t) : PosRanks t t := by
  intro i hi
  rw [rankAt, List.getD_eq_getElem t 0 hi]
  exact h _ (List.getElem_mem hi)

theorem pairwise_take_to_le {t : Text} {m : Nat} {l : List Nat}
    (hmem : ∀ x ∈ l, x < t.length) (hm : t.length ≤ m)
    (h : List.Pairwise (fun a b => lexLe (takeN t m a) (takeN t m b)) l) :
    List.Pairwise (suffixLe t) l := by
  refine h.imp_of_mem ?_
  intro a b ha hb hab
  rwa [takeN_all (by omega), takeN_all (by omega)] at hab

theorem pairwise_take_lt_to_le {t : Text} {m : Nat} {l : List Nat}
    (h : List.Pairwise (fun a b => lexLt (takeN t m a) (takeN t m b)) l) :
    List.Pairwise (suffixLe t) l := by
  refine h.imp ?_
  intro a b hab
  exact lexLe_iff.mpr (Or.inl (lexLt_of_take_lexLt m hab))

theorem buildLoop_perm (t : Text) :
    ∀ (fuel : Nat) (sa ra : List Nat) (k : Nat),
      sa.Perm (List.range t.length) →
      (buildLoop t fuel sa ra k).1.Perm (List.range t.length)
  | 0, sa, ra, k, h => h
  | fuel + 1, sa, ra, k, h => by
    simp only [buildLoop]
    split_ifs with h1 h2
    · exact (List.perm_insertionSort _ sa).trans h
    · exact buildLoop_perm t fuel _ _ _ ((List.perm_insertionSort _ sa).trans h)
    · exact h

theorem buildLoop_sorted {t : Text} (hnul : noNul t) :
    ∀ (fuel : Nat) (sa ra : List Nat) (k : Nat), 0 < k →
      t.length ≤ 2 ^ fuel * k →
      sa.Perm (List.range t.length) → RankInv t k ra → PosRanks t ra →
      (t.length ≤ k → List.Pairwise (suffixLe t) sa) →
      List.Pairwise (suffixLe t) (buildLoop t fuel sa ra k).1
  | 0, sa, ra, k, hk, hfuel, hperm, hinv, hpos, hsorted => by
    simp only [buildLoop]
    exact hsorted (by simpa using hfuel)
  | fuel + 1, sa, ra, k, hk, hfuel, hperm, hinv, hpos, hsorted => by
    obtain ⟨hp, hinv2, hpos2, _, hsort2, hstrict⟩ := buildStep_master hk hinv hpos hperm
    simp only [buildLoop]
    split_ifs with h1 h2
    · exact pairwise_take_lt_to_le (hstrict h2)
    · have hfuel2 : t.length ≤ 2 ^ fuel * (2 * k) := by
        have : 2 ^ (fuel + 1) * k = 2 ^ fuel * (2 * k) := by ring
        omega
      refine buildLoop_sorted hnul fuel _ _ (2 * k) (by omega) hfuel2 hp hinv2 hpos2 ?_
      intro hbig
      refine pairwise_take_to_le ?_ hbig hsort2
      intro x hx
      exact List.mem_range.mp (hp.mem_iff.mp hx)
    · exact hsorted (by omega)

theorem buildSa_perm (t : Text) : (buildSa t).Perm (List.range t.length) :=
  buildLoop_perm t t.length (List.range t.length) t 1 (List.Perm.refl _)

theorem buildSa_sorted {t : Text} (hnul : noNul t) :
    List.Pairwise (suffixLe t) (buildSa t) := by
  refine buildLoop_sorted hnul t.length (List.range t.length) t 1 (by omega) ?_
    (List.Perm.refl _) (rankInv_init t) (posRanks_init hnul) ?_
  · have := Nat.lt_two_pow t.length
    omega
  · intro h
    rcases Nat.le_one_iff_eq_zero_or_eq_one.mp h with h0 | h0 <;> rw [h0]
    · simp
    · rw [show List.range 1 = [0] from rfl]
      refine List.Pairwise.cons ?_ List.Pairwise.nil
      intro b hb
      simp at hb

theorem buildSteps_spec {t : Text} (hnul : noNul t) :
    ∀ (fuel : Nat) (sa ra : List Nat) (k : Nat), 0 < k →
      sa.Perm (List.range t.length) → RankInv t k ra → PosRanks t ra →
      ∀ e ∈ buildSteps t fuel sa ra k,
        0 < e.1 ∧ PosRanks t e.2.1 ∧ RankInv t (2 * e.1) e.2.2.2 ∧
          PosRanks t e.2.2.2 ∧
          e.2.2.1.getD 0 0 < t.length ∧ rankAt e.2.2.2 (e.2.2.1.getD 0 0) = 1
  | 0, sa, ra, k, hk, hperm, hinv, hpos => by simp [buildSteps]
  | fuel + 1, sa, ra, k, hk, hperm, hinv, hpos => by
    obtain ⟨hp, hinv2, hpos2, hfst, hsort2, hstrict⟩ := buildStep_master hk hinv hpos hperm
    simp only [buildSteps]
    split_ifs with h1 h2
    · intro e he
      rw [List.mem_singleton] at he
      subst he
      exact ⟨hk, hpos, hinv2, hpos2, hfst (by omega)⟩
    · intro e he
      rcases List.mem_cons.mp he with he | he
      · subst he
        exact ⟨hk, hpos, hinv2, hpos2, hfst (by omega)⟩
      · exact buildSteps_spec hnul fuel _ _ (2 * k) (by omega) hp hinv2 hpos2 e he
    · simp

theorem buildTrace_spec {t : Text} (hnul : noNul t) :
    ∀ e ∈ buildTrace t,
      0 < e.1 ∧ PosRanks t e.2.1 ∧ RankInv t (2 * e.1) e.2.2.2 ∧
        PosRanks t e.2.2.2 ∧
        e.2.2.1.getD 0 0 < t.length ∧ rankAt e.2.2.2 (e.2.2.1.getD 0 0) = 1 :=
  buildSteps_spec hnul t.length (List.range t.length) t 1 (by omega)
    (List.Perm.refl _) (rankInv_init t) (posRanks_init hnul)

/-! ### Claims C1, C5, C8 -/

/-- C1 (amended): for every text, the array produced by `build` is a
permutation of `[0, n)`; when every character code is positive (no NUL
character) it is moreover lexicographically sorted: consecutive-rank
suffixes compare `≤`, pairwise. -/
theorem claim1_build_perm_sorted (t : Text) :
    (buildSa t).Perm (List.range t.length) ∧
      (noNul t → List.Pairwise (suffixLe t) (buildSa t)) :=
  ⟨buildSa_perm t, fun h => buildSa_sorted h⟩

/-- Witness for C1 at the spec's example text "GATAGACA". -/
theorem claim1_witness :
    (buildSa [71, 65, 84, 65, 71, 65, 67, 65]).Perm (List.range 8) ∧
      List.Pairwise (suffixLe [71, 65, 84, 65, 71, 65, 67, 65])
        (buildSa [71, 65, 84, 65, 71, 65, 67, 65]) :=
  ⟨(claim1_build_perm_sorted [71, 65, 84, 65, 71, 65, 67, 65]).1,
    (claim1_build_perm_sorted [71, 65, 84, 65, 71, 65, 67, 65]).2 (by decide)⟩

/-- Counterexample to C1 as stated: on the text of two NUL characters
the construction returns `[0, 1]`, which is not suffix-sorted (the suffix
`[0,0]` is lexicographically greater than the suffix `[0]`). -/
theorem claim1_counterexample :
    buildSa [0, 0] = [0, 1] ∧ ¬ List.Pairwise (suffixLe [0, 0]) (buildSa [0, 0]) := by
  constructor
  · decide
  · decide

/-- C5 (amended): during `build` on a NUL-free text, after the iteration
with doubling step `k` two positions carry equal ranks exactly when the
first `2k` characters of their suffixes (truncated at the text boundary)
coincide. -/
theorem claim5_rank_classes (t : Text) (hnul : noNul t) :
    ∀ e ∈ buildTrace t, ∀ i < t.length, ∀ j < t.length,
      (rankAt e.2.2.2 i = rankAt e.2.2.2 j ↔
        takeN t (2 * e.1) i = takeN t (2 * e.1) j) := by
  intro e he i hi j hj
  obtain ⟨-, -, hinv, -, -, -⟩ := buildTrace_spec hnul e he
  exact rankInv_eq_iff hinv hi hj

/-- Witness for C5: text "AB", the iteration with `k = 1`. -/
theorem claim5_witness :
    rankAt ((1, [65, 66], [0, 1], [1, 2]) :
        Nat × List Nat × List Nat × List Nat).2.2.2 0 =
      rankAt ((1, [65, 66], [0, 1], [1, 2]) :
        Nat × List Nat × List Nat × List Nat).2.2.2 1 ↔
      takeN [65, 66] (2 * 1) 0 = takeN [65, 66] (2 * 1) 1 :=
  claim5_rank_classes [65, 66] (by decide) (1, [65, 66], [0, 1], [1, 2])
    (by decide) 0 (by decide) 1 (by decide)

/-- Counterexample to C5 as stated: on the two-NUL text, after the `k = 1`
iteration positions 0 and 1 receive the same rank although the first two
characters of their suffixes differ (`[0,0]` versus `[0]`). -/
theorem claim5_counterexample :
    ∃ e ∈ buildTrace [0, 0],
      rankAt e.2.2.2 0 = rankAt e.2.2.2 1 ∧
        ¬ takeN [0, 0] (2 * e.1) 0 = takeN [0, 0] (2 * e.1) 1 := by
  decide

/-- C8 (amended): during `build` on a NUL-free text, at every doubling
step all rank values held for text positions — both the ranks read by
`cmp` during the step and the refined ranks it produces — are at least 1,
so the sentinel value 0 used for positions past the end of the text is
strictly smaller than every rank of a suffix; moreover the refined ranks
of each step start at exactly 1. -/
theorem claim8_sentinel_ranks (t : Text) (hnul : noNul t) :
    ∀ e ∈ buildTrace t,
      (∀ i < t.length, 1 ≤ rankAt e.2.1 i) ∧
      (∀ i < t.length, 1 ≤ rankAt e.2.2.2 i) ∧
      (∃ i, i < t.length ∧ rankAt e.2.2.2 i = 1) := by
  intro e he
  obtain ⟨-, hposb, -, hposa, hlt1, hr1⟩ := buildTrace_spec hnul e he
  exact ⟨hposb, hposa, ⟨_, hlt1, hr1⟩⟩

/-- Witness for C8: text "AB", the iteration with `k = 1`. -/
theorem claim8_witness :
    (∀ i < List.length [65, 66],
      1 ≤ rankAt ((1, [65, 66], [0, 1], [1, 2]) :
        Nat × List Nat × List Nat × List Nat).2.1 i) ∧
    (∀ i < List.length [65, 66],
      1 ≤ rankAt ((1, [65, 66], [0, 1], [1, 2]) :
        Nat × List Nat × List Nat × List Nat).2.2.2 i) ∧
    (∃ i, i < List.length [65, 66] ∧
      rankAt ((1, [65, 66], [0, 1], [1, 2]) :
        Nat × List Nat × List Nat × List Nat).2.2.2 i = 1) :=
  claim8_sentinel_ranks [65, 66] (by decide) (1, [65, 66], [0, 1], [1, 2]) (by decide)

/-- Counterexample to C8 as stated: on the text "AB", during the first
doubling step the rank array holds the raw character codes `[65, 66]`;
no position carries rank 1, so the ranks are not "normalized to start
at 1" at every step. -/
theorem claim8_counterexample :
    ∃ e ∈ buildTrace [65, 66], ∀ i < 2, rankAt e.2.1 i ≠ 1 := by
  decide

/-! ### Claims C3 and C4: the two out-of-bounds accesses -/

/-- C3 (code bug): `find` does not always stay in bounds.  On text "A"
with pattern "B" the lower-bound binary search ends with `lo = n = 1` and
line 144 reads `sa[1]`, one slot past the end of the one-element suffix
array; on the empty text it reads `sa[0]` from an empty vector.  The
embedding returns `none` on exactly these out-of-bounds executions. -/
theorem claim3_find_oob :
    find [65] [66] = none ∧ find [] [] = none ∧ find [] [65] = none := by
  refine ⟨by decide, by decide, by decide⟩

/-- C4 (code bug): construction is right on both boundary texts
(`SuffixArray = []` for the empty text, `[0]` for a one-character text)
and `findLCP` returns the empty string on a one-character text; but on
the empty text `findLCP` executes `phi[sa[0]] = -1` (line 167), reading
`sa[0]` from the empty suffix array — an out-of-bounds access instead of
the claimed empty-string return. -/
theorem claim4_boundary :
    buildSa [] = [] ∧ buildSa [65] = [0] ∧ findLCP [65] = some [] ∧
      findLCP [] = none := by
  refine ⟨by decide, by decide, by decide, by decide⟩

/-! ### The two binary searches of `find` -/

/-- Specification of the lower-bound loop: given that "compares below the
pattern" is downward closed along the suffix array, the loop returns the
first slot not below the pattern. -/
theorem lowerLoop_spec (t : Text) (sa : List Nat) (m : Nat) (p : List Nat) (N : Nat)
    (hmono : ∀ u v : Nat, u ≤ v → v < N →
      subCmp t (sa.getD v 0) m p = Ordering.lt →
      subCmp t (sa.getD u 0) m p = Ordering.lt) :
    ∀ (fuel lo hi : Nat), hi - lo ≤ fuel → lo ≤ hi → hi ≤ N →
      (∀ u < lo, subCmp t (sa.getD u 0) m p = Ordering.lt) →
      (∀ u, hi ≤ u → u < N → subCmp t (sa.getD u 0) m p ≠ Ordering.lt) →
      lo ≤ lowerLoop t sa m p fuel lo hi ∧
      lowerLoop t sa m p fuel lo hi ≤ hi ∧
      (∀ u < lowerLoop t sa m p fuel lo hi,
        subCmp t (sa.getD u 0) m p = Ordering.lt) ∧
      (∀ u, lowerLoop t sa m p fuel lo hi ≤ u → u < N →
        subCmp t (sa.getD u 0) m p ≠ Ordering.lt)
  | 0, lo, hi, hfuel, hlohi, hhiN, hpre1, hpre2 => by
    have : lo = hi := by omega
    subst this
    exact ⟨Nat.le_refl _, Nat.le_refl _, hpre1, hpre2⟩
  | fuel + 1, lo, hi, hfuel, hlohi, hhiN, hpre1, hpre2 => by
    simp only [lowerLoop]
    split_ifs with h1 h2
    · -- mid compares below the pattern: move lo
      obtain ⟨ha, hb, hc, hd⟩ := lowerLoop_spec t sa m p N hmono fuel
        ((lo + hi) / 2 + 1) hi (by omega) (by omega) hhiN
        (fun u hu => hmono u ((lo + hi) / 2) (by omega) (by omega) h2) hpre2
      exact ⟨by omega, hb, hc, hd⟩
    · -- mid does not compare below: move hi
      obtain ⟨ha, hb, hc, hd⟩ := lowerLoop_spec t sa m p N hmono fuel lo
        ((lo + hi) / 2) (by omega) (by omega) (by omega) hpre1
        (fun u hu huN hcc => h2 (hmono ((lo + hi) / 2) u hu (by omega) hcc))
      exact ⟨ha, by omega, hc, hd⟩
    · have : lo = hi := by omega
      subst this
      exact ⟨Nat.le_refl _, Nat.le_refl _, hpre1, hpre2⟩

/-- Specification of the upper-bound loop: given that "compares above the
pattern" is upward closed along the suffix array, the loop returns the
last slot not above the pattern (or `-1`). -/
theorem upperLoop_spec (t : Text) (sa : List Nat) (m : Nat) (p : List Nat) (N : Nat)
    (hmono : ∀ u v : Nat, u ≤ v → v < N →
      subCmp t (sa.getD u 0) m p = Ordering.gt →
      subCmp t (sa.getD v 0) m p = Ordering.gt) :
    ∀ (fuel : Nat) (lo hi : Int), hi - lo ≤ (fuel : Int) → -1 ≤ lo → lo ≤ hi →
      hi ≤ (N : Int) - 1 →
      (∀ u : Nat, (u : Int) ≤ lo → subCmp t (sa.getD u 0) m p ≠ Ordering.gt) →
      (∀ u : Nat, hi < (u : Int) → u < N → subCmp t (sa.getD u 0) m p = Ordering.gt) →
      lo ≤ upperLoop t sa m p fuel lo hi ∧
      upperLoop t sa m p fuel lo hi ≤ hi ∧
      (∀ u : Nat, (u : Int) ≤ upperLoop t sa m p fuel lo hi →
        subCmp t (sa.getD u 0) m p ≠ Ordering.gt) ∧
      (∀ u : Nat, upperLoop t sa m p fuel lo hi < (u : Int) → u < N →
        subCmp t (sa.getD u 0) m p = Ordering.gt)
  | 0, lo, hi, hfuel, hlo, hlohi, hhiN, hpre1, hpre2 => by
    have : lo = hi := by omega
    subst this
    exact ⟨Int.le_refl _, Int.le_refl _, hpre1, hpre2⟩
  | fuel + 1, lo, hi, hfuel, hlo, hlohi, hhiN, hpre1, hpre2 => by
    simp only [upperLoop]
    split_ifs with h1 h2
    · -- mid compares above the pattern: move hi
      have hmi1 : lo + 1 ≤ (lo + hi + 1) / 2 := by omega
      have hmi2 : (lo + hi + 1) / 2 ≤ hi := by omega
      obtain ⟨ha, hb, hc, hd⟩ := upperLoop_spec t sa m p N hmono fuel lo
        ((lo + hi + 1) / 2 - 1) (by omega) hlo (by omega) (by omega) hpre1
        (fun u hu huN => hmono ((lo + hi + 1) / 2).toNat u (by omega) huN h2)
      exact ⟨ha, by omega, hc, hd⟩
    · -- mid does not compare above: move lo
      have hmi1 : lo + 1 ≤ (lo + hi + 1) / 2 := by omega
      have hmi2 : (lo + hi + 1) / 2 ≤ hi := by omega
      obtain ⟨ha, hb, hc, hd⟩ := upperLoop_spec t sa m p N hmono fuel
        ((lo + hi + 1) / 2) hi (by omega) (by omega) (by omega) hhiN
        (fun u hu hcc => h2 (hmono u ((lo + hi + 1) / 2).toNat (by omega)
          (by omega) hcc)) hpre2
      exact ⟨by omega, hb, hc, hd⟩
    · have : lo = hi := by omega
      subst this
      exact ⟨Int.le_refl _, Int.le_refl _, hpre1, hpre2⟩

theorem buildSa_length (t : Text) : (buildSa t).length = t.length := by
  rw [(buildSa_perm t).length_eq, List.length_range]

theorem buildSa_getD_lt {t : Text} {u : Nat} (hu : u < t.length) :
    (buildSa t).getD u 0 < t.length := by
  have hlen := buildSa_length t
  rw [List.getD_eq_getElem _ 0 (by omega)]
  exact List.mem_range.mp ((buildSa_perm t).mem_iff.mp (List.getElem_mem (by omega)))

theorem buildSa_suffixLe {t : Text} (hnul : noNul t) {u v : Nat} (huv : u ≤ v)
    (hv : v < t.length) :
    lexLe (t.drop ((buildSa t).getD u 0)) (t.drop ((buildSa t).getD v 0)) := by
  have hlen := buildSa_length t
  rcases Nat.eq_or_lt_of_le huv with rfl | hlt
  · exact lexLe_refl _
  · have hps := List.pairwise_iff_getElem.mp (buildSa_sorted hnul) u v
      (by omega) (by omega) hlt
    rw [List.getD_eq_getElem _ 0 (by omega), List.getD_eq_getElem _ 0 (by omega)]
    exact hps

theorem subCmp_lt_mono {t : Text} (hnul : noNul t) (p : List Nat) :
    ∀ u v : Nat, u ≤ v → v < t.length →
      subCmp t ((buildSa t).getD v 0) p.length p = Ordering.lt →
      subCmp t ((buildSa t).getD u 0) p.length p = Ordering.lt := by
  intro u v huv hv hc
  have hle2 : lexLe (takeN t p.length ((buildSa t).getD u 0))
      (takeN t p.length ((buildSa t).getD v 0)) :=
    lexLe_take_of_lexLe p.length (buildSa_suffixLe hnul huv hv)
  exact lexLt_of_lexLe_of_lexLt hle2 hc

theorem subCmp_gt_mono {t : Text} (hnul : noNul t) (p : List Nat) :
    ∀ u v : Nat, u ≤ v → v < t.length →
      subCmp t ((buildSa t).getD u 0) p.length p = Ordering.gt →
      subCmp t ((buildSa t).getD v 0) p.length p = Ordering.gt := by
  intro u v huv hv hc
  have hle2 : lexLe (takeN t p.length ((buildSa t).getD u 0))
      (takeN t p.length ((buildSa t).getD v 0)) :=
    lexLe_take_of_lexLe p.length (buildSa_suffixLe hnul huv hv)
  rw [subCmp, listCmp_gt_iff_lt] at hc ⊢
  exact lexLt_of_lexLt_of_lexLe hc hle2

theorem ordering_cases (o : Ordering) :
    o = Ordering.lt ∨ o = Ordering.eq ∨ o = Ordering.gt := by
  cases o
  · exact Or.inl rfl
  · exact Or.inr (Or.inl rfl)
  · exact Or.inr (Or.inr rfl)

theorem map_getD_range (l : List Nat) :
    (List.range l.length).map (fun j => l.getD j 0) = l := by
  apply List.ext_getElem
  · simp
  · intro i h1 h2
    simp only [List.getElem_map, List.getElem_range]
    exact List.getD_eq_getElem l 0 h2

/-- A position of the suffix array whose suffix starts with the pattern
is an occurrence, and conversely. -/
theorem subCmp_eq_iff_occurs {t p : Text} {x : Nat} (hx : x < t.length) :
    subCmp t x p.length p = Ordering.eq ↔ occursAt t p x := by
  rw [subCmp, listCmp_eq_iff, occursAt]
  constructor
  · intro h; exact ⟨hx, h⟩
  · intro h; exact h.2

/-! ### Claims C2, C9 -/

/-- C2 (amended): on a NUL-free text, whenever `find` completes without
its out-of-bounds read (it reads `sa[n]` exactly when the lower-bound
search reaches `n`, i.e. every length-`m` suffix prefix compares below
the pattern), the returned list contains exactly the start positions at
which the pattern occurs in the text. -/
theorem claim2_find_exact (t p : Text) (hnul : noNul t) (l : List Nat)
    (hfind : find t p = some l) :
    ∀ x : Nat, x ∈ l ↔ occursAt t p x := by
  have hperm := buildSa_perm t
  have hlen := buildSa_length t
  obtain ⟨hr1, hr2, hr3, hr4⟩ := lowerLoop_spec t (buildSa t) p.length p t.length
    (subCmp_lt_mono hnul p) t.length 0 t.length (by omega) (by omega)
    (Nat.le_refl _) (by intro u hu; omega) (by intro u h1 h2 hc; omega)
  obtain ⟨hu1, hu2, hu3, hu4⟩ := upperLoop_spec t (buildSa t) p.length p t.length
    (subCmp_gt_mono hnul p) t.length (-1) ((t.length : Int) - 1) (by omega)
    (by omega) (by omega) (by omega)
    (by intro u hu; omega) (by intro u h1 h2; omega)
  have hmemsa : ∀ x : Nat, x < t.length →
      ∃ u : Nat, u < t.length ∧ (buildSa t).getD u 0 = x := by
    intro x hx
    have hxsa : x ∈ buildSa t := hperm.mem_iff.mpr (List.mem_range.mpr hx)
    obtain ⟨u, hu, hux⟩ := List.mem_iff_getElem.mp hxsa
    exact ⟨u, by omega, by rw [List.getD_eq_getElem _ 0 hu]; exact hux⟩
  have hoccval : ∀ u : Nat, u < t.length →
      (subCmp t ((buildSa t).getD u 0) p.length p = Ordering.eq ↔
        occursAt t p ((buildSa t).getD u 0)) := by
    intro u hu
    exact subCmp_eq_iff_occurs (buildSa_getD_lt hu)
  simp only [find] at hfind
  split_ifs at hfind with h1 h2
  · -- exact-match test failed: the result is empty and nothing occurs
    have hl : l = [] := by
      simpa using hfind.symm
    subst hl
    intro x
    simp only [List.not_mem_nil, false_iff]
    intro hocc
    obtain ⟨u, hun, hux⟩ := hmemsa x hocc.1
    have hueq : subCmp t ((buildSa t).getD u 0) p.length p = Ordering.eq := by
      rw [hux]
      exact (subCmp_eq_iff_occurs hocc.1).mpr hocc
    have hlo_gt : subCmp t ((buildSa t).getD
        (lowerLoop t (buildSa t) p.length p t.length 0 t.length) 0) p.length p =
          Ordering.gt := by
      rcases ordering_cases (subCmp t ((buildSa t).getD
        (lowerLoop t (buildSa t) p.length p t.length 0 t.length) 0) p.length p)
        with hc | hc | hc
      · exact absurd hc (hr4 _ (Nat.le_refl _) h1)
      · exact absurd hc h2
      · exact hc
    rcases Nat.lt_or_ge u (lowerLoop t (buildSa t) p.length p t.length 0 t.length)
      with hcase | hcase
    · rw [hr3 u hcase] at hueq
      exact absurd hueq (by simp)
    · have := subCmp_gt_mono hnul p _ u hcase hun hlo_gt
      rw [this] at hueq
      exact absurd hueq (by simp)
  · -- exact match found: the result is the whole equal range
    have hl : l = (List.range
        ((upperLoop t (buildSa t) p.length p t.length (-1) ((t.length : Int) - 1) + 1 -
          (lowerLoop t (buildSa t) p.length p t.length 0 t.length : Int)).toNat)).map
        (fun j => (buildSa t).getD
          (lowerLoop t (buildSa t) p.length p t.length 0 t.length + j) 0) := by
      simpa using hfind.symm
    have hloeq : subCmp t ((buildSa t).getD
        (lowerLoop t (buildSa t) p.length p t.length 0 t.length) 0) p.length p =
          Ordering.eq := by
      simpa using h2
    have hlast_ge : (lowerLoop t (buildSa t) p.length p t.length 0 t.length : Int) ≤
        upperLoop t (buildSa t) p.length p t.length (-1) ((t.length : Int) - 1) := by
      by_contra hc
      have := hu4 (lowerLoop t (buildSa t) p.length p t.length 0 t.length)
        (by omega) h1
      rw [this] at hloeq
      exact absurd hloeq (by simp)
    subst hl
    intro x
    simp only [List.mem_map, List.mem_range]
    constructor
    · rintro ⟨j, hj, rfl⟩
      have hun : lowerLoop t (buildSa t) p.length p t.length 0 t.length + j <
          t.length := by omega
      have hueq : subCmp t ((buildSa t).getD
          (lowerLoop t (buildSa t) p.length p t.length 0 t.length + j) 0)
            p.length p = Ordering.eq := by
        rcases ordering_cases (subCmp t ((buildSa t).getD
          (lowerLoop t (buildSa t) p.length p t.length 0 t.length + j) 0)
            p.length p) with hc | hc | hc
        · exact absurd hc (hr4 _ (by omega) hun)
        · exact hc
        · exact absurd hc (hu3 _ (by omega))
      exact (hoccval _ hun).mp hueq
    · intro hocc
      obtain ⟨u, hun, hux⟩ := hmemsa x hocc.1
      have hueq : subCmp t ((buildSa t).getD u 0) p.length p = Ordering.eq := by
        rw [hux]
        exact (subCmp_eq_iff_occurs hocc.1).mpr hocc
      have hge : lowerLoop t (buildSa t) p.length p t.length 0 t.length ≤ u := by
        by_contra hc
        rw [hr3 u (by omega)] at hueq
        exact absurd hueq (by simp)
      have hle : (u : Int) ≤
          upperLoop t (buildSa t) p.length p t.length (-1) ((t.length : Int) - 1) := by
        by_contra hc
        rw [hu4 u (by omega) hun] at hueq
        exact absurd hueq (by simp)
      refine ⟨u - lowerLoop t (buildSa t) p.length p t.length 0 t.length,
        by omega, ?_⟩
      rw [show lowerLoop t (buildSa t) p.length p t.length 0 t.length +
        (u - lowerLoop t (buildSa t) p.length p t.length 0 t.length) = u by omega]
      exact hux

/-- Witness for C2 at the spec's scenario: text "GATAGACA", pattern "GA",
occurrences exactly at positions 0 and 4. -/
theorem claim2_witness :
    (0 ∈ [4, 0] ↔ occursAt [71, 65, 84, 65, 71, 65, 67, 65] [71, 65] 0) ∧
      (2 ∈ [4, 0] ↔ occursAt [71, 65, 84, 65, 71, 65, 67, 65] [71, 65] 2) := by
  have h := claim2_find_exact [71, 65, 84, 65, 71, 65, 67, 65] [71, 65]
    (by decide) [4, 0] (by decide)
  exact ⟨h 0, h 2⟩

/-- Counterexample to C2 as stated: on text "GATAGACA" and pattern "TT"
(which compares above every suffix) `find` does not return any list at
all — it aborts on the out-of-bounds read `sa[8]` — rather than
returning the (empty) occurrence set. -/
theorem claim2_counterexample :
    find [71, 65, 84, 65, 71, 65, 67, 65] [84, 84] = none := by decide

/-- C9: on every non-empty text, `find` applied to the empty pattern
returns the whole suffix array: `n` indices forming a permutation of
`[0, n)`, listed in suffix-array order. -/
theorem claim9_empty_pattern (t : Text) (h0 : 0 < t.length) :
    find t [] = some (buildSa t) ∧ (buildSa t).Perm (List.range t.length) := by
  refine ⟨?_, buildSa_perm t⟩
  have hsub : ∀ pos : Nat, subCmp t pos 0 [] = Ordering.eq := fun pos => rfl
  obtain ⟨hr1, hr2, hr3, hr4⟩ := lowerLoop_spec t (buildSa t) 0 [] t.length
    (fun u v _ _ hc => absurd hc (by rw [hsub]; simp)) t.length 0 t.length
    (by omega) (by omega) (Nat.le_refl _) (by intro u hu; omega)
    (by intro u h1 h2 hc; omega)
  obtain ⟨hu1, hu2, hu3, hu4⟩ := upperLoop_spec t (buildSa t) 0 [] t.length
    (fun u v _ _ hc => absurd hc (by rw [hsub]; simp)) t.length (-1)
    ((t.length : Int) - 1) (by omega) (by omega) (by omega) (by omega)
    (by intro u hu; omega) (by intro u h1 h2; omega)
  have hlow0 : lowerLoop t (buildSa t) 0 [] t.length 0 t.length = 0 := by
    by_contra hc
    have := hr3 0 (by omega)
    rw [hsub] at this
    exact absurd this (by simp)
  have hupn : upperLoop t (buildSa t) 0 [] t.length (-1) ((t.length : Int) - 1) =
      (t.length : Int) - 1 := by
    rcases Int.lt_or_le (upperLoop t (buildSa t) 0 [] t.length (-1)
      ((t.length : Int) - 1)) ((t.length : Int) - 1) with hc | hc
    · exfalso
      have hnn : (upperLoop t (buildSa t) 0 [] t.length (-1)
          ((t.length : Int) - 1) + 1).toNat < t.length := by omega
      have := hu4 ((upperLoop t (buildSa t) 0 [] t.length (-1)
        ((t.length : Int) - 1) + 1).toNat) (by omega) hnn
      rw [hsub] at this
      exact absurd this (by simp)
    · omega
  simp only [find, List.length_nil, hlow0, hupn, if_pos h0]
  rw [if_neg (by rw [hsub]; simp)]
  have harith : ((t.length : Int) - 1 + 1 - (0 : Nat)).toNat = t.length := by omega
  rw [harith]
  have hmap : (List.range t.length).map (fun j => (buildSa t).getD (0 + j) 0) =
      buildSa t := by
    have := map_getD_range (buildSa t)
    rw [buildSa_length t] at this
    simpa using this
  rw [hmap]

/-- Witness for C9 at the text "GATAGACA". -/
theorem claim9_witness :
    find [71, 65, 84, 65, 71, 65, 67, 65] [] =
        some (buildSa [71, 65, 84, 65, 71, 65, 67, 65]) ∧
      (buildSa [71, 65, 84, 65, 71, 65, 67, 65]).Perm (List.range 8) :=
  claim9_empty_pattern [71, 65, 84, 65, 71, 65, 67, 65] (by decide)

/-! ### The character-comparison scan of `findLCP` -/

/-- Dropping then indexing is indexing at the sum (with matching defaults
on both sides of the boundary). -/
theorem drop_getD (t : Text) (i L : Nat) :
    (t.drop i).getD L 0 = t.getD (i + L) 0 := by
  by_cases h : i + L < t.length
  · have hL : L < (t.drop i).length := by simp [List.length_drop]; omega
    rw [List.getD_eq_getElem _ 0 hL, List.getD_eq_getElem t 0 h, List.getElem_drop]
  · have h1 : (t.drop i).length ≤ L := by simp [List.length_drop]; omega
    rw [List.getD_eq_default _ 0 h1, List.getD_eq_default t 0 (by omega)]

/-- For `pos ≤ n`, the `std::string` character read returns the
drop-indexed character (`0` exactly at the terminator). -/
theorem charAt_eq {t : Text} {i L : Nat} (h : i + L ≤ t.length) :
    charAt t (i + L) = some ((t.drop i).getD L 0) := by
  rw [drop_getD]
  unfold charAt
  by_cases h2 : i + L < t.length
  · rw [if_pos h2]
  · have h3 : i + L = t.length := by omega
    rw [if_neg h2, if_pos h3, List.getD_eq_default t 0 (by omega)]

/-- At position `lcpLen` the two suffixes of a NUL-free text disagree in
the padded sense (distinct suffixes, so they cannot both end there). -/
theorem lcp_mismatch {t : Text} (hnul : noNul t) {i j : Nat} (hi : i < t.length)
    (hj : j < t.length) (hij : i ≠ j) :
    (t.drop i).getD (lcpLen (t.drop i) (t.drop j)) 0 ≠
      (t.drop j).getD (lcpLen (t.drop i) (t.drop j)) 0 := by
  have hchar : ∀ p : Nat, p < t.length → 0 < t.getD p 0 := by
    intro p hp
    rw [List.getD_eq_getElem t 0 hp]
    exact hnul _ (List.getElem_mem hp)
  have hlei := lcpLen_le_left (t.drop i) (t.drop j)
  have hlej := lcpLen_le_right (t.drop i) (t.drop j)
  rw [List.length_drop] at hlei hlej
  rcases lcpLen_stop (t.drop i) (t.drop j) with hs | hs | hs
  · rw [List.length_drop] at hs
    have h1 : (t.drop i).getD (lcpLen (t.drop i) (t.drop j)) 0 = 0 := by
      apply List.getD_eq_default
      rw [List.length_drop]; omega
    have h2 : j + lcpLen (t.drop i) (t.drop j) < t.length := by omega
    rw [h1, drop_getD t j]
    have := hchar _ h2
    omega
  · rw [List.length_drop] at hs
    have h1 : (t.drop j).getD (lcpLen (t.drop i) (t.drop j)) 0 = 0 := by
      apply List.getD_eq_default
      rw [List.length_drop]; omega
    have h2 : i + lcpLen (t.drop i) (t.drop j) < t.length := by omega
    rw [h1, drop_getD t i]
    have := hchar _ h2
    omega
  · exact hs

/-- Exact computation: started at any `L` at most the true common-prefix
length, the scan of line 178 returns exactly that length. -/
theorem kasaiLoop_exact {t : Text} (hnul : noNul t) {i j : Nat}
    (hi : i < t.length) (hj : j < t.length) (hij : i ≠ j) :
    ∀ (fuel L : Nat), L ≤ lcpLen (t.drop i) (t.drop j) →
      lcpLen (t.drop i) (t.drop j) + 1 ≤ fuel + L →
      kasaiLoop t i j fuel L = some (lcpLen (t.drop i) (t.drop j))
  | 0, L, hL, hfuel => by omega
  | fuel + 1, L, hL, hfuel => by
    have hlei := lcpLen_le_left (t.drop i) (t.drop j)
    have hlej := lcpLen_le_right (t.drop i) (t.drop j)
    rw [List.length_drop] at hlei hlej
    have hiL : i + L ≤ t.length := by omega
    have hjL : j + L ≤ t.length := by omega
    rw [kasaiLoop, charAt_eq hiL, charAt_eq hjL]
    show (if (t.drop i).getD L 0 = (t.drop j).getD L 0 then
        kasaiLoop t i j fuel (L + 1) else some L) =
      some (lcpLen (t.drop i) (t.drop j))
    rcases Nat.lt_or_ge L (lcpLen (t.drop i) (t.drop j)) with hcase | hcase
    · rw [if_pos (getD_eq_of_lt_lcpLen hcase)]
      exact kasaiLoop_exact hnul hi hj hij fuel (L + 1) (by omega) (by omega)
    · have hLeq : L = lcpLen (t.drop i) (t.drop j) := by omega
      subst hLeq
      rw [if_neg (lcp_mismatch hnul hi hj hij)]

/-- Termination and bounds of the unguarded scan from an arbitrary
in-bounds start: it stops no later than where the shorter suffix meets
the terminator, and both cursors stay at most one past the text. -/
theorem kasaiLoop_term {t : Text} (hnul : noNul t) {i j : Nat}
    (hi : i < t.length) (hj : j < t.length) (hij : i ≠ j) :
    ∀ (fuel L : Nat), i + L ≤ t.length → j + L ≤ t.length →
      t.length + 1 ≤ fuel + L →
      ∃ L2, kasaiLoop t i j fuel L = some L2 ∧ L ≤ L2 ∧
        i + L2 ≤ t.length ∧ j + L2 ≤ t.length
  | 0, L, hiL, hjL, hfuel => absurd hfuel (by omega)
  | fuel + 1, L, hiL, hjL, hfuel => by
    have hchar : ∀ p : Nat, p < t.length → 0 < t.getD p 0 := by
      intro p hp
      rw [List.getD_eq_getElem t 0 hp]
      exact hnul _ (List.getElem_mem hp)
    rw [kasaiLoop, charAt_eq hiL, charAt_eq hjL]
    show ∃ L2, (if (t.drop i).getD L 0 = (t.drop j).getD L 0 then
        kasaiLoop t i j fuel (L + 1) else some L) = some L2 ∧ L ≤ L2 ∧
      i + L2 ≤ t.length ∧ j + L2 ≤ t.length
    by_cases heq : (t.drop i).getD L 0 = (t.drop j).getD L 0
    · have hroom : i + L < t.length ∧ j + L < t.length := by
        constructor
        · rcases Nat.lt_or_ge (i + L) t.length with h | h
          · exact h
          · exfalso
            have hjlt : j + L < t.length := by omega
            rw [drop_getD, drop_getD, List.getD_eq_default t 0 (by omega)] at heq
            have := hchar _ hjlt
            omega
        · rcases Nat.lt_or_ge (j + L) t.length with h | h
          · exact h
          · exfalso
            have hilt : i + L < t.length := by omega
            rw [drop_getD, drop_getD,
              show t.getD (j + L) 0 = 0 from List.getD_eq_default t 0 (by omega)] at heq
            have := hchar _ hilt
            omega
      rw [if_pos heq]
      obtain ⟨L2, h1, h2, h3, h4⟩ := kasaiLoop_term hnul hi hj hij fuel (L + 1)
        (by omega) (by omega) (by omega)
      exact ⟨L2, h1, by omega, h3, h4⟩
    · rw [if_neg heq]
      exact ⟨L, rfl, Nat.le_refl _, hiL, hjL⟩

/-! ### Claim C10 -/

/-- C10: on a NUL-free text the unguarded character-comparison loop of
`findLCP`, run for distinct in-bounds indices `i ≠ j` from any start `L`
with both cursors in bounds, terminates (fuel `n + 1` always suffices)
and stops with `i + L ≤ n` and `j + L ≤ n`: it never reads past the
one-past-the-end position of the text. -/
theorem claim10_scan_safe (t : Text) (hnul : noNul t) (i j L : Nat)
    (hi : i < t.length) (hj : j < t.length) (hij : i ≠ j)
    (hiL : i + L ≤ t.length) (hjL : j + L ≤ t.length) :
    ∃ L2, kasaiLoop t i j (t.length + 1) L = some L2 ∧ L ≤ L2 ∧
      i + L2 ≤ t.length ∧ j + L2 ≤ t.length :=
  kasaiLoop_term hnul hi hj hij (t.length + 1) L hiL hjL (by omega)

/-- Witness for C10: text "GATAGACA", `i = 0`, `j = 4`, `L = 0`. -/
theorem claim10_witness :
    ∃ L2, kasaiLoop [71, 65, 84, 65, 71, 65, 67, 65] 0 4 9 0 = some L2 ∧
      0 ≤ L2 ∧ 0 + L2 ≤ 8 ∧ 4 + L2 ≤ 8 :=
  claim10_scan_safe [71, 65, 84, 65, 71, 65, 67, 65] (by decide) 0 4 0
    (by decide) (by decide) (by decide) (by decide) (by decide)

/-! ### The Phi array -/

theorem buildSa_nodup (t : Text) : (buildSa t).Nodup :=
  (buildSa_perm t).nodup_iff.mpr (List.nodup_range t.length)

theorem buildSa_indexOf_lt {t : Text} {p : Nat} (hp : p < t.length) :
    (buildSa t).indexOf p < t.length := by
  rw [← buildSa_length t]
  exact List.indexOf_lt_length.mpr ((buildSa_perm t).mem_iff.mpr (List.mem_range.mpr hp))

theorem buildSa_getD_indexOf {t : Text} {p : Nat} (hp : p < t.length) :
    (buildSa t).getD ((buildSa t).indexOf p) 0 = p := by
  have h := buildSa_indexOf_lt hp
  rw [List.getD_eq_getElem _ 0 (by rw [buildSa_length]; exact h)]
  exact List.getElem_indexOf (by rw [buildSa_length]; exact h)

theorem buildSa_indexOf_getD {t : Text} {u : Nat} (hu : u < t.length) :
    (buildSa t).indexOf ((buildSa t).getD u 0) = u := by
  have hu2 : u < (buildSa t).length := by rw [buildSa_length]; exact hu
  rw [List.getD_eq_getElem _ 0 hu2]
  exact List.indexOf_getElem (buildSa_nodup t) u hu2

theorem phiList_getD {t : Text} {p : Nat} (hp : p < t.length) :
    (phiList t (buildSa t)).getD p 0 =
      if (buildSa t).indexOf p = 0 then -1
      else ((buildSa t).getD ((buildSa t).indexOf p - 1) 0 : Int) := by
  unfold phiList
  have hlen : p < ((List.range t.length).map fun p =>
      if (buildSa t).indexOf p = 0 then (-1 : Int)
      else ((buildSa t).getD ((buildSa t).indexOf p - 1) 0 : Nat)).length := by
    simpa using hp
  rw [List.getD_eq_getElem _ 0 hlen, List.getElem_map, List.getElem_range]

theorem phi_sentinel_iff {t : Text} {p : Nat} (hp : p < t.length) :
    ((phiList t (buildSa t)).getD p 0 = -1 ↔ (buildSa t).indexOf p = 0) := by
  rw [phiList_getD hp]
  split_ifs with h
  · simp [h]
  · simp [h]

/-- A position with a non-sentinel `Phi` entry: the entry is the text
position of the suffix one slot earlier in the suffix array. -/
theorem phi_target {t : Text} {p : Nat} (hp : p < t.length)
    (hns : (phiList t (buildSa t)).getD p 0 ≠ -1) :
    ∃ q : Nat, (phiList t (buildSa t)).getD p 0 = (q : Int) ∧ q < t.length ∧
      q ≠ p ∧ (buildSa t).indexOf q + 1 = (buildSa t).indexOf p := by
  have hidx : (buildSa t).indexOf p ≠ 0 :=
    fun hc => hns ((phi_sentinel_iff hp).mpr hc)
  have hidxlt := buildSa_indexOf_lt hp
  refine ⟨(buildSa t).getD ((buildSa t).indexOf p - 1) 0, ?_, ?_, ?_, ?_⟩
  · rw [phiList_getD hp, if_neg hidx]
  · exact buildSa_getD_lt (by omega)
  · intro hc
    have h1 := buildSa_indexOf_getD (t := t) (u := (buildSa t).indexOf p - 1) (by omega)
    rw [hc] at h1
    omega
  · rw [buildSa_indexOf_getD (by omega)]
    omega

/-- Suffix order is slot order in the suffix array. -/
theorem pos_lt_of_suffix_lt {t : Text} (hnul : noNul t) {x y : Nat}
    (hx : x < t.length) (hy : y < t.length) (hlt : lexLt (t.drop x) (t.drop y)) :
    (buildSa t).indexOf x < (buildSa t).indexOf y := by
  rcases Nat.lt_or_ge ((buildSa t).indexOf x) ((buildSa t).indexOf y) with h | h
  · exact h
  · exfalso
    have hle := buildSa_suffixLe hnul h (buildSa_indexOf_lt hx)
    rw [buildSa_getD_indexOf hy, buildSa_getD_indexOf hx] at hle
    exact (lexLt_iff_not_lexLe.mp hlt) hle

theorem lexLt_cons_iff {a : Nat} {x y : List Nat} :
    lexLt (a :: x) (a :: y) ↔ lexLt x y := by
  simp [lexLt, listCmp]

/-- The Kasai shift: two suffixes sharing at least two characters with a
strict order keep one shared character and the strict order after
dropping their first character. -/
theorem kasai_shift {t : Text} {i q : Nat} (hi : i < t.length) (hq : q < t.length)
    (hlt : lexLt (t.drop q) (t.drop i)) (h2 : 2 ≤ lcpLen (t.drop i) (t.drop q)) :
    q + 1 < t.length ∧ i + 1 < t.length ∧
      lexLt (t.drop (q + 1)) (t.drop (i + 1)) ∧
      lcpLen (t.drop i) (t.drop q) ≤ lcpLen (t.drop (i + 1)) (t.drop (q + 1)) + 1 := by
  have hlei := lcpLen_le_left (t.drop i) (t.drop q)
  have hleq := lcpLen_le_right (t.drop i) (t.drop q)
  rw [List.length_drop] at hlei hleq
  have hi1 : i + 1 < t.length := by omega
  have hq1 : q + 1 < t.length := by omega
  have hheads : t.getD i 0 = t.getD q 0 := by
    have := getD_eq_of_lt_lcpLen (x := t.drop i) (y := t.drop q) (u := 0) (by omega)
    rwa [drop_getD, drop_getD, Nat.add_zero, Nat.add_zero] at this
  have hconsi := drop_eq_cons hi
  have hconsq := drop_eq_cons hq
  refine ⟨hq1, hi1, ?_, ?_⟩
  · rw [hconsi, hconsq, hheads] at hlt
    exact lexLt_cons_iff.mp hlt
  · rw [hconsi, hconsq, hheads, lcpLen, if_pos rfl]

/-- Kasai monotonicity: the true PLCP drops by at most one per step of
the original-order scan. -/
theorem plcpTrue_mono {t : Text} (hnul : noNul t) {i : Nat}
    (h1 : i + 1 < t.length) : plcpTrue t i ≤ plcpTrue t (i + 1) + 1 := by
  by_cases hs : (phiList t (buildSa t)).getD i 0 = -1
  · unfold plcpTrue
    rw [if_pos hs]
    exact Nat.zero_le _
  · obtain ⟨q, hqv, hq, hqi, hqidx⟩ := phi_target (by omega) hs
    have hplcp : plcpTrue t i = lcpLen (t.drop i) (t.drop q) := by
      unfold plcpTrue
      rw [if_neg hs, hqv]
      simp
    rcases Nat.lt_or_ge (lcpLen (t.drop i) (t.drop q)) 2 with hsmall | hbig
    · omega
    · have hqlt : lexLt (t.drop q) (t.drop i) := by
        have hle := buildSa_suffixLe hnul
          (show (buildSa t).indexOf q ≤ (buildSa t).indexOf i by omega)
          (buildSa_indexOf_lt (by omega))
        rw [buildSa_getD_indexOf hq, buildSa_getD_indexOf (by omega)] at hle
        rcases lexLe_iff.mp hle with h | h
        · exact h
        · exact absurd h (drop_ne_of_ne hq (by omega) hqi)
      obtain ⟨hq1, hi1, hshift_lt, hshift_len⟩ := kasai_shift (by omega) hq hqlt hbig
      have hqpos : (buildSa t).indexOf (q + 1) < (buildSa t).indexOf (i + 1) :=
        pos_lt_of_suffix_lt hnul hq1 hi1 hshift_lt
      have hns1 : (phiList t (buildSa t)).getD (i + 1) 0 ≠ -1 := by
        intro hc
        rw [phi_sentinel_iff h1] at hc
        omega
      obtain ⟨r, hrv, hr, hri, hridx⟩ := phi_target h1 hns1
      have hplcp1 : plcpTrue t (i + 1) = lcpLen (t.drop (i + 1)) (t.drop r) := by
        unfold plcpTrue
        rw [if_neg hns1, hrv]
        simp
      have hord1 : lexLe (t.drop (q + 1)) (t.drop r) := by
        have h := buildSa_suffixLe hnul
          (show (buildSa t).indexOf (q + 1) ≤ (buildSa t).indexOf r by omega)
          (buildSa_indexOf_lt hr)
        rwa [buildSa_getD_indexOf hq1, buildSa_getD_indexOf hr] at h
      have hord2 : lexLe (t.drop r) (t.drop (i + 1)) := by
        have h := buildSa_suffixLe hnul
          (show (buildSa t).indexOf r ≤ (buildSa t).indexOf (i + 1) by omega)
          (buildSa_indexOf_lt hi1)
        rwa [buildSa_getD_indexOf hr, buildSa_getD_indexOf hi1] at h
      have hdom := lcpLen_le_of_between hord1 hord2
      have hc1 := lcpLen_comm (t.drop (i + 1)) (t.drop (q + 1))
      have hc2 := lcpLen_comm (t.drop r) (t.drop (i + 1))
      rw [hplcp, hplcp1]
      omega

/-- Just before the lexicographically smallest suffix (the sentinel slot)
the true PLCP is at most 1: the running counter is exactly 0 after the
decrement there. -/
theorem plcpTrue_before_sentinel {t : Text} (hnul : noNul t) {i : Nat}
    (h1 : i + 1 < t.length)
    (hsent : (phiList t (buildSa t)).getD (i + 1) 0 = -1) : plcpTrue t i ≤ 1 := by
  by_cases hs : (phiList t (buildSa t)).getD i 0 = -1
  · unfold plcpTrue
    rw [if_pos hs]
    omega
  · obtain ⟨q, hqv, hq, hqi, hqidx⟩ := phi_target (by omega) hs
    have hplcp : plcpTrue t i = lcpLen (t.drop i) (t.drop q) := by
      unfold plcpTrue
      rw [if_neg hs, hqv]
      simp
    rcases Nat.lt_or_ge (lcpLen (t.drop i) (t.drop q)) 2 with hsmall | hbig
    · omega
    · exfalso
      have hqlt : lexLt (t.drop q) (t.drop i) := by
        have hle := buildSa_suffixLe hnul
          (show (buildSa t).indexOf q ≤ (buildSa t).indexOf i by omega)
          (buildSa_indexOf_lt (by omega))
        rw [buildSa_getD_indexOf hq, buildSa_getD_indexOf (by omega)] at hle
        rcases lexLe_iff.mp hle with h | h
        · exact h
        · exact absurd h (drop_ne_of_ne hq (by omega) hqi)
      obtain ⟨hq1, hi1, hshift_lt, _⟩ := kasai_shift (by omega) hq hqlt hbig
      have hqpos : (buildSa t).indexOf (q + 1) < (buildSa t).indexOf (i + 1) :=
        pos_lt_of_suffix_lt hnul hq1 hi1 hshift_lt
      rw [phi_sentinel_iff h1] at hsent
      omega

/-! ### The main loop of `findLCP` -/

/-- Invariant-carrying run of the loop of lines 173-187 over the
remaining original-order indices. -/
theorem lcpLoop_spec {t : Text} (hnul : noNul t) :
    ∀ (c i L maxL : Nat) (lcp acc : List Nat),
      i + c = t.length →
      acc.length = i →
      (∀ u, u < i → acc.getD u 0 = plcpTrue t u) →
      (i < t.length →
        ((phiList t (buildSa t)).getD i 0 = -1 → L = 0) ∧
        ((phiList t (buildSa t)).getD i 0 ≠ -1 → L ≤ plcpTrue t i)) →
      (∀ u, u < i → plcpTrue t u ≤ maxL) →
      (∃ w, w + maxL ≤ t.length ∧ lcp = (t.drop w).take maxL) →
      lcp.length = maxL →
      (maxL = 0 ∨ ∃ u, u < i ∧ plcpTrue t u = maxL) →
      ∃ lcpF accF,
        lcpLoop t (phiList t (buildSa t)) (List.range' i c) L maxL lcp acc =
          some (lcpF, accF) ∧
        accF.length = t.length ∧
        (∀ u, u < t.length → accF.getD u 0 = plcpTrue t u) ∧
        (∃ w, w + lcpF.length ≤ t.length ∧ lcpF = (t.drop w).take lcpF.length) ∧
        (∀ u, u < t.length → plcpTrue t u ≤ lcpF.length) ∧
        (lcpF.length = 0 ∨ ∃ u, u < t.length ∧ plcpTrue t u = lcpF.length)
  | 0, i, L, maxL, lcp, acc, hic, halen, haval, hLinv, hub, hwit, hlcplen, hex => by
    have hieq : i = t.length := by omega
    subst hieq
    refine ⟨lcp, acc, rfl, halen, haval, ?_, ?_, ?_⟩
    · rw [hlcplen]; exact hwit
    · rw [hlcplen]; exact hub
    · rw [hlcplen]; exact hex
  | c + 1, i, L, maxL, lcp, acc, hic, halen, haval, hLinv, hub, hwit, hlcplen, hex => by
    have hi : i < t.length := by omega
    rw [List.range'_succ]
    by_cases hsent : (phiList t (buildSa t)).getD i 0 = -1
    · -- the sentinel slot: plcp[i] = 0 and `continue`
      have hL0 : L = 0 := (hLinv hi).1 hsent
      have hplcp0 : plcpTrue t i = 0 := by
        unfold plcpTrue
        rw [if_pos hsent]
      rw [lcpLoop, if_pos hsent]
      refine lcpLoop_spec hnul c (i + 1) L maxL lcp (acc ++ [0]) (by omega)
        (by simp [halen]) ?_ ?_ ?_ hwit hlcplen ?_
      · intro u hu
        rcases Nat.lt_or_ge u i with h | h
        · rw [List.getD_append _ _ _ _ (by omega)]
          exact haval u h
        · have hui : u = i := by omega
          subst hui
          rw [List.getD_append_right _ _ _ _ (by omega), halen]
          simpa using hplcp0.symm
      · intro _
        constructor
        · intro _; exact hL0
        · intro _; rw [hL0]; exact Nat.zero_le _
      · intro u hu
        rcases Nat.lt_or_ge u i with h | h
        · exact hub u h
        · have hui : u = i := by omega
          subst hui
          rw [hplcp0]
          exact Nat.zero_le _
      · rcases hex with h | ⟨u, hu, hue⟩
        · exact Or.inl h
        · exact Or.inr ⟨u, by omega, hue⟩
    · -- a regular slot: scan, record, update the maximum, decrement
      obtain ⟨q, hqv, hq, hqi, hqidx⟩ := phi_target hi hsent
      have hplcpi : plcpTrue t i = lcpLen (t.drop i) (t.drop q) := by
        unfold plcpTrue
        rw [if_neg hsent, hqv]
        simp
      have hM := lcpLen_le_left (t.drop i) (t.drop q)
      rw [List.length_drop] at hM
      have hkas : kasaiLoop t i ((phiList t (buildSa t)).getD i 0).toNat
          (t.length + 1) L = some (lcpLen (t.drop i) (t.drop q)) := by
        rw [hqv]
        simp only [Int.toNat_natCast]
        exact kasaiLoop_exact hnul hi hq (fun hc => hqi hc.symm) (t.length + 1) L
          (by rw [← hplcpi]; exact (hLinv hi).2 hsent) (by omega)
      rw [lcpLoop, if_neg hsent, hkas]
      dsimp only
      -- the L-invariant for the next index
      have hLnext : i + 1 < t.length →
          ((phiList t (buildSa t)).getD (i + 1) 0 = -1 →
            lcpLen (t.drop i) (t.drop q) - 1 = 0) ∧
          ((phiList t (buildSa t)).getD (i + 1) 0 ≠ -1 →
            lcpLen (t.drop i) (t.drop q) - 1 ≤ plcpTrue t (i + 1)) := by
        intro h2
        constructor
        · intro hsent2
          have := plcpTrue_before_sentinel hnul h2 hsent2
          rw [hplcpi] at this
          omega
        · intro _
          have := plcpTrue_mono hnul h2
          rw [hplcpi] at this
          omega
      have haccval : ∀ u, u < i + 1 →
          (acc ++ [lcpLen (t.drop i) (t.drop q)]).getD u 0 = plcpTrue t u := by
        intro u hu
        rcases Nat.lt_or_ge u i with h | h
        · rw [List.getD_append _ _ _ _ (by omega)]
          exact haval u h
        · have hui : u = i := by omega
          subst hui
          rw [List.getD_append_right _ _ _ _ (by omega), halen]
          simpa using hplcpi.symm
      split_ifs with hmax
      · -- new maximum
        refine lcpLoop_spec hnul c (i + 1) (lcpLen (t.drop i) (t.drop q) - 1)
          (lcpLen (t.drop i) (t.drop q)) ((t.drop i).take (lcpLen (t.drop i) (t.drop q)))
          (acc ++ [lcpLen (t.drop i) (t.drop q)]) (by omega) (by simp [halen])
          haccval hLnext ?_ ?_ ?_ ?_
        · intro u hu
          rcases Nat.lt_or_ge u i with h | h
          · have := hub u h
            omega
          · have hui : u = i := by omega
            subst hui
            rw [hplcpi]
        · exact ⟨i, by omega, rfl⟩
        · rw [List.length_take, List.length_drop]
          omega
        · exact Or.inr ⟨i, by omega, hplcpi⟩
      · -- maximum unchanged
        refine lcpLoop_spec hnul c (i + 1) (lcpLen (t.drop i) (t.drop q) - 1)
          maxL lcp (acc ++ [lcpLen (t.drop i) (t.drop q)]) (by omega)
          (by simp [halen]) haccval hLnext ?_ hwit hlcplen ?_
        · intro u hu
          rcases Nat.lt_or_ge u i with h | h
          · exact hub u h
          · have hui : u = i := by omega
            subst hui
            rw [hplcpi]
            omega
        · rcases hex with h | ⟨u, hu, hue⟩
          · exact Or.inl h
          · exact Or.inr ⟨u, by omega, hue⟩

/-- The full run of `findLCP` on a non-empty NUL-free text. -/
theorem lcpRun_spec {t : Text} (hnul : noNul t) (h0 : 0 < t.length) :
    ∃ lcpF accF, lcpRun t = some (lcpF, accF) ∧
      accF.length = t.length ∧
      (∀ u, u < t.length → accF.getD u 0 = plcpTrue t u) ∧
      (∃ w, w + lcpF.length ≤ t.length ∧ lcpF = (t.drop w).take lcpF.length) ∧
      (∀ u, u < t.length → plcpTrue t u ≤ lcpF.length) ∧
      (lcpF.length = 0 ∨ ∃ u, u < t.length ∧ plcpTrue t u = lcpF.length) := by
  have hspec := lcpLoop_spec hnul t.length 0 0 0 [] [] (by omega) rfl
    (by intro u hu; omega) ?_ (by intro u hu; omega) ⟨0, by omega, by simp⟩ rfl
    (Or.inl rfl)
  · unfold lcpRun
    rw [if_neg (by omega), List.range_eq_range']
    exact hspec
  · intro _
    exact ⟨fun _ => rfl, fun _ => Nat.zero_le _⟩

/-! ### Padded grams and the order computed by build on arbitrary texts -/

theorem padTake_length (t : Text) : ∀ (m x : Nat), (padTake t m x).length = m
  | 0, _ => rfl
  | m + 1, x => by simp [padTake, padTake_length t m]

theorem padTake_append (t : Text) :
    ∀ (a b x : Nat), padTake t (a + b) x = padTake t a x ++ padTake t b (x + a)
  | 0, b, x => by simp [padTake]
  | a + 1, b, x => by
    rw [show a + 1 + b = (a + b) + 1 from by omega]
    show padAt t x :: padTake t (a + b) (x + 1) =
      (padAt t x :: padTake t a (x + 1)) ++ padTake t b (x + (a + 1))
    rw [List.cons_append, padTake_append t a b (x + 1),
      show x + 1 + a = x + (a + 1) from by omega]

theorem padAt_of_ge {t : Text} {p : Nat} (h : t.length ≤ p) : padAt t p = 0 :=
  List.getD_eq_default t 0 h

theorem padTake_of_ge (t : Text) :
    ∀ (m : Nat) {x : Nat}, t.length ≤ x → padTake t m x = List.replicate m 0
  | 0, _, _ => rfl
  | m + 1, x, hx => by
    rw [show padTake t (m + 1) x = padAt t x :: padTake t m (x + 1) from rfl,
      padAt_of_ge hx, padTake_of_ge t m (by omega), List.replicate_succ]

/-- A window wider than the text splits into the full-text window and
all-zero padding. -/
theorem padTake_split {t : Text} {m : Nat} (hm : t.length ≤ m) (z : Nat) :
    padTake t m z = padTake t t.length z ++ List.replicate (m - t.length) 0 := by
  have h1 := padTake_append t t.length (m - t.length) z
  rw [show t.length + (m - t.length) = m from by omega] at h1
  rw [h1, padTake_of_ge t (m - t.length) (by omega)]

/-- No list of naturals of the right length is strictly below the
all-zero list. -/
theorem not_lexLt_replicate : ∀ (A : List Nat) (m : Nat), A.length = m →
    ¬ lexLt A (List.replicate m 0)
  | [], 0, _ => by simp [lexLt, listCmp, List.replicate]
  | [], m + 1, h => by simp at h
  | a :: A, 0, h => by simp at h
  | a :: A, m + 1, h => by
    rw [List.replicate_succ]
    unfold lexLt listCmp
    rw [if_neg (by omega)]
    by_cases ha : 0 < a
    · rw [if_pos ha]; simp
    · rw [if_neg ha]
      exact not_lexLt_replicate A m (by simpa using h)

/-- Strict comparison of block pairs with equal-length first blocks:
either the first blocks decide, or they are equal and the second blocks
decide. -/
theorem lexLt_append_cases {A B C D : List Nat} (hlen : A.length = B.length)
    (h : lexLt (A ++ C) (B ++ D)) : lexLt A B ∨ (A = B ∧ lexLt C D) := by
  unfold lexLt at h
  rw [listCmp_append_blocks A B C D (fun hl => absurd hl (by omega))
    (fun hl => absurd hl (by omega))] at h
  rcases listCmp_cases A B with hc | hc | hc
  · exact Or.inl hc
  · rw [hc] at h
    exact Or.inr ⟨listCmp_eq_iff.mp hc, show listCmp C D = Ordering.lt from h⟩
  · rw [hc] at h
    exact absurd (show Ordering.gt = Ordering.lt from h) (by decide)

theorem padTake_getD (t : Text) :
    ∀ (m x d : Nat), d < m → (padTake t m x).getD d 0 = padAt t (x + d)
  | 0, _, _, hd => absurd hd (by omega)
  | m + 1, x, 0, _ => by simp [padTake]
  | m + 1, x, d + 1, hd => by
    show (padTake t m (x + 1)).getD d 0 = padAt t (x + (d + 1))
    rw [padTake_getD t m (x + 1) d (by omega),
      show x + 1 + d = x + (d + 1) from by omega]

/-- Agreement below `e` and a strict difference at `e` inside the window
give a strict padded comparison. -/
theorem padTake_lt_of_agree (t : Text) :
    ∀ (e m x y : Nat), e < m →
      (∀ d, d < e → padAt t (x + d) = padAt t (y + d)) →
      padAt t (x + e) < padAt t (y + e) →
      lexLt (padTake t m x) (padTake t m y)
  | e, 0, _, _, he, _, _ => absurd he (by omega)
  | 0, m + 1, x, y, _, _, hdif => by
    show lexLt (padAt t x :: padTake t m (x + 1)) (padAt t y :: padTake t m (y + 1))
    unfold lexLt listCmp
    rw [if_pos (by simpa using hdif)]
  | e + 1, m + 1, x, y, he, hagr, hdif => by
    show lexLt (padAt t x :: padTake t m (x + 1)) (padAt t y :: padTake t m (y + 1))
    have h0 : padAt t x = padAt t y := by simpa using hagr 0 (by omega)
    rw [h0, lexLt_cons_iff]
    refine padTake_lt_of_agree t e m (x + 1) (y + 1) (by omega) ?_ ?_
    · intro d hd
      have h2 := hagr (d + 1) (by omega)
      rw [show x + (d + 1) = x + 1 + d from by omega,
        show y + (d + 1) = y + 1 + d from by omega] at h2
      exact h2
    · rw [show x + 1 + e = x + (e + 1) from by omega,
        show y + 1 + e = y + (e + 1) from by omega]
      exact hdif

/-- With a weak padded comparison, agreement below `e`, and a difference
at `e` inside the text, the difference must favour the smaller side. -/
theorem padLt_of_padLe_of_mismatch {t : Text} {e x y : Nat} (he : e < t.length)
    (hle : lexLe (padTake t t.length x) (padTake t t.length y))
    (hagr : ∀ d, d < e → padAt t (x + d) = padAt t (y + d))
    (hdif : padAt t (x + e) ≠ padAt t (y + e)) :
    padAt t (x + e) < padAt t (y + e) := by
  rcases Nat.lt_trichotomy (padAt t (x + e)) (padAt t (y + e)) with h | h | h
  · exact h
  · exact absurd h hdif
  · exact absurd hle (lexLt_iff_not_lexLe.mp
      (padTake_lt_of_agree t e t.length y x he (fun d hd => (hagr d hd).symm) h))

/-- Pointwise padded agreement below `e` bounds the common prefix of the
padded windows from below. -/
theorem lcpLen_padTake_of_agree (t : Text) :
    ∀ (e m x y : Nat), e ≤ m →
      (∀ d, d < e → padAt t (x + d) = padAt t (y + d)) →
      e ≤ lcpLen (padTake t m x) (padTake t m y)
  | 0, _, _, _, _, _ => Nat.zero_le _
  | e + 1, 0, _, _, he, _ => absurd he (by omega)
  | e + 1, m + 1, x, y, he, hagr => by
    show e + 1 ≤ lcpLen (padAt t x :: padTake t m (x + 1))
      (padAt t y :: padTake t m (y + 1))
    rw [lcpLen, if_pos (by simpa using hagr 0 (by omega))]
    have hrec : e ≤ lcpLen (padTake t m (x + 1)) (padTake t m (y + 1)) := by
      refine lcpLen_padTake_of_agree t e m (x + 1) (y + 1) (by omega) ?_
      intro d hd
      have h2 := hagr (d + 1) (by omega)
      rw [show x + (d + 1) = x + 1 + d from by omega,
        show y + (d + 1) = y + 1 + d from by omega] at h2
      exact h2
    omega

/-- A common-prefix bound on padded windows gives pointwise padded
agreement. -/
theorem agree_of_lcpLen_padTake {t : Text} {m x y e : Nat}
    (h : e ≤ lcpLen (padTake t m x) (padTake t m y)) :
    ∀ d, d < e → padAt t (x + d) = padAt t (y + d) := by
  intro d hd
  have hlen := lcpLen_le_left (padTake t m x) (padTake t m y)
  rw [padTake_length] at hlen
  rw [← padTake_getD t m x d (by omega), ← padTake_getD t m y d (by omega)]
  exact getD_eq_of_lt_lcpLen (by omega)

/-- A padded difference at `e` inside the window bounds the common
prefix of the padded windows from above. -/
theorem lcpLen_padTake_le {t : Text} {m x y e : Nat} (he : e < m)
    (hdif : padAt t (x + e) ≠ padAt t (y + e)) :
    lcpLen (padTake t m x) (padTake t m y) ≤ e := by
  by_contra hc
  have h2 : e + 1 ≤ lcpLen (padTake t m x) (padTake t m y) := by omega
  exact hdif (agree_of_lcpLen_padTake h2 e (by omega))

theorem padMono_init (t : Text) : PadMono t 1 t := by
  intro x hx y hy hlt
  have h1 : padTake t 1 x = [padAt t x] := rfl
  have h2 : padTake t 1 y = [padAt t y] := rfl
  rw [h1, h2, lexLt_single_iff] at hlt
  exact hlt

theorem padEnd_init (t : Text) : PadEnd t 1 t := by
  intro x hx y hy heq hlt
  have heq2 : [padAt t x] = [padAt t y] := heq
  have heq3 : padAt t x = padAt t y := by simpa using heq2
  have hlt2 : padAt t x < padAt t y := hlt
  omega

theorem padPos_init (t : Text) : PadPos t 1 t := by
  intro x hx h0
  have h1 : padAt t x = 0 := h0
  show padAt t x :: padTake t 0 (x + 1) = List.replicate 1 0
  rw [h1]
  rfl

/-- Unconditional content of one doubling iteration: the sorted array is
still a permutation and is sorted by the refined ranks, the refined rank
order is exactly the composite-key order of the previous ranks, refined
ranks are positive, and the early-exit condition makes them injective. -/
theorem buildStep_rank_iff {t : Text} {sa ra : List Nat} {k : Nat}
    (hperm : sa.Perm (List.range t.length)) :
    (buildStep t sa ra k).1.Perm (List.range t.length) ∧
    (∀ i, i < t.length → ∀ j, j < t.length →
      (rankAt (buildStep t sa ra k).2 i < rankAt (buildStep t sa ra k).2 j ↔
        pairLt (keyOf t ra k i) (keyOf t ra k j))) ∧
    (∀ i, i < t.length → 1 ≤ rankAt (buildStep t sa ra k).2 i) ∧
    List.Pairwise (fun a b => rankAt (buildStep t sa ra k).2 a ≤
      rankAt (buildStep t sa ra k).2 b) (buildStep t sa ra k).1 ∧
    (rankAt (buildStep t sa ra k).2
        ((buildStep t sa ra k).1.getD (t.length - 1) 0) = t.length →
      ∀ i, i < t.length → ∀ j, j < t.length →
        rankAt (buildStep t sa ra k).2 i = rankAt (buildStep t sa ra k).2 j →
        i = j) := by
  set n := t.length with hn
  set srt := sa.insertionSort (saLe t ra k) with hsrt
  set rb := rbList t ra k srt 1 with hrb
  have hstep1 : (buildStep t sa ra k).1 = srt := rfl
  have hstep2 : (buildStep t sa ra k).2 = newRa t srt rb := rfl
  have hperm2 : srt.Perm (List.range n) := (List.perm_insertionSort _ sa).trans hperm
  have hlen : srt.length = n := by rw [hperm2.length_eq, List.length_range]
  have hnodup : srt.Nodup := hperm2.nodup_iff.mpr (List.nodup_range n)
  have hmem : ∀ x ∈ srt, x < n := by
    intro x hx
    exact List.mem_range.mp (hperm2.mem_iff.mp hx)
  have hsorted : srt.Pairwise (saLe t ra k) :=
    @List.sorted_insertionSort _ (saLe t ra k) _ ⟨saLe_total t ra k⟩
      ⟨saLe_trans t ra k⟩ sa
  have hs : ∀ u v : Nat, u < v → v < srt.length →
      ¬ pairLt (keyOf t ra k (srt.getD v 0)) (keyOf t ra k (srt.getD u 0)) := by
    intro u v huv hv
    have hu : u < srt.length := by omega
    have hps := List.pairwise_iff_getElem.mp hsorted u v hu hv huv
    rw [List.getD_eq_getElem srt 0 hu, List.getD_eq_getElem srt 0 hv]
    rw [← cmp_iff_pairLt]
    simpa [saLe] using hps
  have hidx_lt : ∀ i, i < n → srt.indexOf i < srt.length := by
    intro i hi
    exact List.indexOf_lt_length.mpr (hperm2.mem_iff.mpr (List.mem_range.mpr hi))
  have hidx_getd : ∀ u, u < srt.length → srt.indexOf (srt.getD u 0) = u := by
    intro u hu
    rw [List.getD_eq_getElem srt 0 hu]
    exact List.indexOf_getElem hnodup u hu
  have hgetd_idx : ∀ i, i < n → srt.getD (srt.indexOf i) 0 = i := by
    intro i hi
    rw [List.getD_eq_getElem srt 0 (hidx_lt i hi)]
    exact List.getElem_indexOf (hidx_lt i hi)
  have hra2 : ∀ i, i < n → rankAt (newRa t srt rb) i = rb.getD (srt.indexOf i) 0 := by
    intro i hi
    have hlenmap : i < ((List.range n).map
        (fun p => rb.getD (srt.indexOf p) 0)).length := by
      simpa using hi
    rw [rankAt, newRa, ← hn, List.getD_eq_getElem _ 0 hlenmap, List.getElem_map,
      List.getElem_range]
  have hiff : ∀ i, i < n → ∀ j, j < n →
      (rankAt (newRa t srt rb) i < rankAt (newRa t srt rb) j ↔
        pairLt (keyOf t ra k i) (keyOf t ra k j)) := by
    intro i hi j hj
    rw [hra2 i hi, hra2 j hj]
    have h4 := rb_lt_iff t ra k srt 1 hs (srt.indexOf i) (srt.indexOf j)
      (hidx_lt i hi) (hidx_lt j hj)
    rw [hgetd_idx i hi, hgetd_idx j hj] at h4
    rw [h4]
  refine ⟨by rw [hstep1]; exact hperm2, by rw [hstep2]; exact hiff, ?_, ?_, ?_⟩
  · intro i hi
    rw [hstep2, hra2 i hi]
    exact rbList_ge t ra k srt 1 _ (hidx_lt i hi)
  · rw [hstep1, hstep2]
    refine hsorted.imp_of_mem ?_
    intro a b ha hb hle
    have ha2 : a < n := hmem a ha
    have hb2 : b < n := hmem b hb
    have hnotlt : ¬ pairLt (keyOf t ra k b) (keyOf t ra k a) := by
      rw [← cmp_iff_pairLt]
      simpa [saLe] using hle
    rcases Nat.lt_or_ge (rankAt (newRa t srt rb) b) (rankAt (newRa t srt rb) a)
      with h4 | h4
    · exact absurd ((hiff b hb2 a ha2).mp h4) hnotlt
    · exact h4
  · intro hbreak i hi j hj hreq
    rw [hstep1, hstep2] at hbreak
    rw [hstep2] at hreq
    have hn0 : 0 < n := by omega
    have hlast : srt.getD (n - 1) 0 < n := by
      rw [List.getD_eq_getElem srt 0 (by omega)]
      exact hmem _ (List.getElem_mem (by omega))
    rw [hra2 _ hlast, hidx_getd (n - 1) (by omega)] at hbreak
    have hhead : rb.getD 0 0 = 1 := by
      cases hc : srt with
      | nil => rw [hc] at hlen; simp at hlen; omega
      | cons a l => rw [hrb, hc]; exact rbList_head t ra k a l 1
    have hvals : ∀ u, u < n → rb.getD u 0 = u + 1 := by
      intro u hu
      have h1 : rb.getD u 0 ≤ rb.getD 0 0 + u :=
        rbList_le_add t ra k srt 1 0 u (by omega) (by omega)
      have h2 : rb.getD (n - 1) 0 ≤ rb.getD u 0 + (n - 1 - u) :=
        rbList_le_add t ra k srt 1 u (n - 1) (by omega) (by omega)
      omega
    have hiu : srt.indexOf i < n := by
      have := hidx_lt i hi
      omega
    have hju : srt.indexOf j < n := by
      have := hidx_lt j hj
      omega
    rw [hra2 i hi, hra2 j hj, hvals _ hiu, hvals _ hju] at hreq
    have hidq : srt.indexOf i = srt.indexOf j := by omega
    have h5 := hgetd_idx i hi
    rw [hidq, hgetd_idx j hj] at h5
    exact h5.symm

/-- One doubling iteration carries the padded-order invariants from
window `k` to window `2k`, on every text. -/
theorem buildStep_pad {t : Text} {sa ra : List Nat} {k : Nat}
    (hperm : sa.Perm (List.range t.length))
    (hmono : PadMono t k ra) (hend : PadEnd t k ra) (hpos : PadPos t k ra) :
    PadMono t (2 * k) (buildStep t sa ra k).2 ∧
      PadEnd t (2 * k) (buildStep t sa ra k).2 ∧
      PadPos t (2 * k) (buildStep t sa ra k).2 := by
  obtain ⟨-, hiff, hge1, -, -⟩ := @buildStep_rank_iff t sa ra k hperm
  have hsplit : ∀ z : Nat,
      padTake t (2 * k) z = padTake t k z ++ padTake t k (z + k) := by
    intro z
    rw [two_mul, padTake_append]
  have hlen2 : ∀ z : Nat, (padTake t k z).length = k := fun z => padTake_length t k z
  refine ⟨?_, ?_, ?_⟩
  · intro x hx y hy hlt
    rw [hsplit x, hsplit y] at hlt
    rw [hiff x hx y hy]
    rcases lexLt_append_cases (by rw [hlen2, hlen2]) hlt with hcase | ⟨heq1, hlt2⟩
    · exact Or.inl (hmono x hx y hy hcase)
    · rcases Nat.lt_trichotomy (rankAt ra x) (rankAt ra y) with hr | hr | hr
      · exact Or.inl hr
      · refine Or.inr ⟨hr, ?_⟩
        show (if x + k < t.length then rankAt ra (x + k) else 0) <
          (if y + k < t.length then rankAt ra (y + k) else 0)
        by_cases hyk : y + k < t.length
        · rw [if_pos hyk]
          by_cases hxk : x + k < t.length
          · rw [if_pos hxk]
            exact hmono (x + k) hxk (y + k) hyk hlt2
          · rw [if_neg hxk]
            rcases Nat.eq_zero_or_pos (rankAt ra (y + k)) with h0 | h0
            · exfalso
              rw [hpos (y + k) hyk h0] at hlt2
              exact not_lexLt_replicate _ k (hlen2 _) hlt2
            · exact h0
        · exfalso
          rw [padTake_of_ge t k (show t.length ≤ y + k from by omega)] at hlt2
          exact not_lexLt_replicate _ k (hlen2 _) hlt2
      · exfalso
        have h6 := hend y hy x hx heq1.symm hr
        rw [padTake_of_ge t k (show t.length ≤ y + k from by omega)] at hlt2
        exact not_lexLt_replicate _ k (hlen2 _) hlt2
  · intro x hx y hy heq hlt
    rw [hsplit x, hsplit y] at heq
    obtain ⟨heq1, heq2⟩ := List.append_inj heq (by rw [hlen2, hlen2])
    rcases (hiff x hx y hy).mp hlt with hr | ⟨hr1, hr2⟩
    · have := hend x hx y hy heq1 hr
      omega
    · have hr2b : (if x + k < t.length then rankAt ra (x + k) else 0) <
          (if y + k < t.length then rankAt ra (y + k) else 0) := hr2
      by_cases hxk : x + k < t.length
      · rw [if_pos hxk] at hr2b
        by_cases hyk : y + k < t.length
        · rw [if_pos hyk] at hr2b
          have := hend (x + k) hxk (y + k) hyk heq2 hr2b
          omega
        · rw [if_neg hyk] at hr2b
          omega
      · omega
  · intro x hx h0
    have := hge1 x hx
    omega

/-- With a window at least the text length, the rank order on positions
refines the padded lexicographic order of their full padded suffixes. -/
theorem padMono_final {t : Text} {m : Nat} {ra : List Nat} (hm : t.length ≤ m)
    (hmono : PadMono t m ra) :
    ∀ x, x < t.length → ∀ y, y < t.length → rankAt ra x ≤ rankAt ra y →
      lexLe (padTake t t.length x) (padTake t t.length y) := by
  intro x hx y hy hr
  by_contra hc
  have hlt : lexLt (padTake t t.length y) (padTake t t.length x) :=
    lexLt_iff_not_lexLe.mpr hc
  have hext : lexLt (padTake t m y) (padTake t m x) := by
    rw [padTake_split hm y, padTake_split hm x]
    unfold lexLt
    rw [listCmp_append_blocks _ _ _ _ (fun hl => absurd hl (by simp [padTake_length]))
      (fun hl => absurd hl (by simp [padTake_length])),
      show listCmp (padTake t t.length y) (padTake t t.length x) = Ordering.lt from hlt]
    rfl
  have := hmono y hy x hx hext
  omega

/-- After the early-exit iteration the rank order refines the padded
lexicographic order even when the final window is shorter than the text:
equal windows with distinct ranks can only continue with padding on the
smaller-ranked side. -/
theorem padBreak_final {t : Text} {m : Nat} {ra : List Nat}
    (hmono : PadMono t m ra) (hend : PadEnd t m ra)
    (hinj : ∀ x, x < t.length → ∀ y, y < t.length →
      rankAt ra x = rankAt ra y → x = y) :
    ∀ x, x < t.length → ∀ y, y < t.length → rankAt ra x ≤ rankAt ra y →
      lexLe (padTake t t.length x) (padTake t t.length y) := by
  rcases Nat.lt_or_ge m t.length with hm | hm
  · intro x hx y hy hr
    by_contra hc
    have hlt : lexLt (padTake t t.length y) (padTake t t.length x) :=
      lexLt_iff_not_lexLe.mpr hc
    have hsplity : padTake t t.length y =
        padTake t m y ++ padTake t (t.length - m) (y + m) := by
      have h1 := padTake_append t m (t.length - m) y
      rw [show m + (t.length - m) = t.length from by omega] at h1
      exact h1
    have hsplitx : padTake t t.length x =
        padTake t m x ++ padTake t (t.length - m) (x + m) := by
      have h1 := padTake_append t m (t.length - m) x
      rw [show m + (t.length - m) = t.length from by omega] at h1
      exact h1
    rw [hsplity, hsplitx] at hlt
    rcases lexLt_append_cases (by simp [padTake_length]) hlt with hcase | ⟨heq1, hlt2⟩
    · have := hmono y hy x hx hcase
      omega
    · rcases Nat.lt_or_ge (rankAt ra x) (rankAt ra y) with hr2 | hr2
      · have h7 := hend x hx y hy heq1.symm hr2
        rw [padTake_of_ge t (t.length - m) (show t.length ≤ x + m from h7)] at hlt2
        exact not_lexLt_replicate _ _ (by simp [padTake_length]) hlt2
      · have hxy : x = y := hinj x hx y hy (by omega)
        subst hxy
        exact lexLt_irrefl _ hlt2
  · exact padMono_final hm hmono

/-- The doubling loop keeps the padded-order invariants and ends in a
state whose rank order refines the padded lexicographic order of the
suffixes, with the suffix array sorted by the final ranks. -/
theorem buildLoop_pad (t : Text) :
    ∀ (fuel : Nat) (sa ra : List Nat) (k : Nat), 0 < k →
      t.length ≤ 2 ^ fuel * k →
      sa.Perm (List.range t.length) →
      PadMono t k ra → PadEnd t k ra → PadPos t k ra →
      (t.length ≤ k →
        List.Pairwise (fun a b => rankAt ra a ≤ rankAt ra b) sa) →
      (∀ x, x < t.length → ∀ y, y < t.length →
        rankAt (buildLoop t fuel sa ra k).2 x ≤
          rankAt (buildLoop t fuel sa ra k).2 y →
        lexLe (padTake t t.length x) (padTake t t.length y)) ∧
      List.Pairwise (fun a b => rankAt (buildLoop t fuel sa ra k).2 a ≤
        rankAt (buildLoop t fuel sa ra k).2 b) (buildLoop t fuel sa ra k).1
  | 0, sa, ra, k, hk, hfuel, hperm, hmono, hend, hpos, hsorted => by
    simp only [buildLoop]
    have hnk : t.length ≤ k := by simpa using hfuel
    exact ⟨padMono_final hnk hmono, hsorted hnk⟩
  | fuel + 1, sa, ra, k, hk, hfuel, hperm, hmono, hend, hpos, hsorted => by
    obtain ⟨hp2, hiff, hge1, hsort2, hinj⟩ := @buildStep_rank_iff t sa ra k hperm
    obtain ⟨hmono2, hend2, hpos2⟩ := buildStep_pad hperm hmono hend hpos
    simp only [buildLoop]
    split_ifs with h1 h2
    · exact ⟨padBreak_final hmono2 hend2 (hinj h2), hsort2⟩
    · have hfuel2 : t.length ≤ 2 ^ fuel * (2 * k) := by
        have : 2 ^ (fuel + 1) * k = 2 ^ fuel * (2 * k) := by ring
        omega
      exact buildLoop_pad t fuel _ _ (2 * k) (by omega) hfuel2 hp2 hmono2 hend2 hpos2
        (fun _ => hsort2)
    · have hnk : t.length ≤ k := by omega
      exact ⟨padMono_final hnk hmono, hsorted hnk⟩

/-- For every text — NUL characters allowed — the rank order computed by
`build` refines the padded lexicographic order of the suffixes, and the
suffix array is sorted by the final ranks. -/
theorem build_pad (t : Text) :
    (∀ x, x < t.length → ∀ y, y < t.length →
      rankAt (build t).2 x ≤ rankAt (build t).2 y →
      lexLe (padTake t t.length x) (padTake t t.length y)) ∧
    List.Pairwise (fun a b => rankAt (build t).2 a ≤ rankAt (build t).2 b)
      (buildSa t) := by
  have hfuel : t.length ≤ 2 ^ t.length * 1 := by
    have := Nat.lt_two_pow t.length
    omega
  have hsorted : t.length ≤ 1 →
      List.Pairwise (fun a b => rankAt t a ≤ rankAt t b) (List.range t.length) := by
    intro h
    rcases Nat.le_one_iff_eq_zero_or_eq_one.mp h with h0 | h0 <;> rw [h0]
    · simp
    · rw [show List.range 1 = [0] from rfl]
      refine List.Pairwise.cons ?_ List.Pairwise.nil
      intro b hb
      simp at hb
  exact buildLoop_pad t t.length (List.range t.length) t 1 (by omega) hfuel
    (List.Perm.refl _) (padMono_init t) (padEnd_init t) (padPos_init t) hsorted

/-- The suffix array is sorted by the final ranks, slotwise. -/
theorem buildSa_rankLe {t : Text} {u v : Nat} (huv : u ≤ v) (hv : v < t.length) :
    rankAt (build t).2 ((buildSa t).getD u 0) ≤
      rankAt (build t).2 ((buildSa t).getD v 0) := by
  rcases Nat.eq_or_lt_of_le huv with h | h
  · subst h
    exact Nat.le_refl _
  · have hlen : v < (buildSa t).length := by rw [buildSa_length]; exact hv
    have hu : u < (buildSa t).length := by omega
    have hp := List.pairwise_iff_getElem.mp (build_pad t).2 u v hu hlen h
    rwa [List.getD_eq_getElem _ 0 hu, List.getD_eq_getElem _ 0 hlen]

/-- The suffix in slot 0 carries the minimal final rank. -/
theorem rank_min {t : Text} {x : Nat} (hx : x < t.length) :
    rankAt (build t).2 ((buildSa t).getD 0 0) ≤ rankAt (build t).2 x := by
  have h1 := buildSa_rankLe (Nat.zero_le ((buildSa t).indexOf x)) (buildSa_indexOf_lt hx)
  rwa [buildSa_getD_indexOf hx] at h1

/-- Rank order refines padded order, position form. -/
theorem rank_padLe {t : Text} {x y : Nat} (hx : x < t.length) (hy : y < t.length)
    (h : rankAt (build t).2 x ≤ rankAt (build t).2 y) :
    lexLe (padTake t t.length x) (padTake t t.length y) :=
  (build_pad t).1 x hx y hy h

/-- A strictly smaller final rank means a strictly earlier slot. -/
theorem slot_lt_of_rank_lt {t : Text} {x y : Nat} (hx : x < t.length)
    (hy : y < t.length)
    (h : rankAt (build t).2 x < rankAt (build t).2 y) :
    (buildSa t).indexOf x < (buildSa t).indexOf y := by
  rcases Nat.lt_or_ge ((buildSa t).indexOf x) ((buildSa t).indexOf y) with hlt | hge
  · exact hlt
  · have h1 := buildSa_rankLe hge (buildSa_indexOf_lt hx)
    rw [buildSa_getD_indexOf hy, buildSa_getD_indexOf hx] at h1
    omega

/-- The sentinel entry of the Phi array belongs exactly to the position
stored in slot 0 of the suffix array. -/
theorem sent_iff {t : Text} {u : Nat} (hu : u < t.length) :
    ((phiList t (buildSa t)).getD u 0 = -1 ↔ u = (buildSa t).getD 0 0) := by
  rw [phi_sentinel_iff hu]
  constructor
  · intro h
    have h2 := buildSa_getD_indexOf hu
    rw [h] at h2
    exact h2.symm
  · intro h
    rw [h]
    exact buildSa_indexOf_getD (by omega)

/-- A character successfully read by `charAt` is the padded character,
and the position is at most the terminator. -/
theorem charAt_some {t : Text} {p a : Nat} (h : charAt t p = some a) :
    a = padAt t p ∧ p ≤ t.length := by
  unfold charAt at h
  by_cases h1 : p < t.length
  · rw [if_pos h1] at h
    exact ⟨(Option.some.inj h).symm, by omega⟩
  · rw [if_neg h1] at h
    by_cases h2 : p = t.length
    · rw [if_pos h2] at h
      have h3 := Option.some.inj h
      refine ⟨?_, by omega⟩
      rw [← h3, padAt, List.getD_eq_default t 0 (by omega)]
    · rw [if_neg h2] at h
      exact absurd h (by simp)

/-- Unconditional characterization of a completed scan: the result is at
least the start, both cursors end in bounds, the padded characters agree
at every offset from the start up to the result, and differ there. -/
theorem kasaiLoop_run {t : Text} {i j : Nat} :
    ∀ (fuel L L2 : Nat), kasaiLoop t i j fuel L = some L2 →
      L ≤ L2 ∧ i + L2 ≤ t.length ∧ j + L2 ≤ t.length ∧
        padAt t (i + L2) ≠ padAt t (j + L2) ∧
        ∀ d, L ≤ d → d < L2 → padAt t (i + d) = padAt t (j + d)
  | 0, L, L2, h => absurd h (by simp [kasaiLoop])
  | fuel + 1, L, L2, h => by
    rw [kasaiLoop] at h
    cases hci : charAt t (i + L) with
    | none =>
      rw [hci] at h
      exact absurd (show (none : Option Nat) = some L2 from h) (by simp)
    | some a =>
      cases hcj : charAt t (j + L) with
      | none =>
        rw [hci, hcj] at h
        exact absurd (show (none : Option Nat) = some L2 from h) (by simp)
      | some b =>
        rw [hci, hcj] at h
        obtain ⟨ha, hia⟩ := charAt_some hci
        obtain ⟨hb, hjb⟩ := charAt_some hcj
        have h2 : (if a = b then kasaiLoop t i j fuel (L + 1) else some L) =
            some L2 := h
        by_cases hab : a = b
        · rw [if_pos hab] at h2
          obtain ⟨hr1, hr2, hr3, hr4, hr5⟩ := kasaiLoop_run fuel (L + 1) L2 h2
          refine ⟨by omega, hr2, hr3, hr4, ?_⟩
          intro d hd1 hd2
          rcases Nat.lt_or_ge d (L + 1) with hd3 | hd3
          · have hdL : d = L := by omega
            subst hdL
            rw [← ha, ← hb, hab]
          · exact hr5 d hd3 hd2
        · rw [if_neg hab] at h2
          have hL2 : L2 = L := (Option.some.inj h2).symm
          subst hL2
          refine ⟨Nat.le_refl _, hia, hjb, ?_, ?_⟩
          · rw [← ha, ← hb]
            exact hab
          · intro d hd1 hd2
            omega

/-- Componentwise agreement with both lengths at least `e` bounds the
common prefix from below. -/
theorem lcpLen_ge_of_agree : ∀ (A B : List Nat) (e : Nat), e ≤ A.length →
    e ≤ B.length → (∀ d, d < e → A.getD d 0 = B.getD d 0) → e ≤ lcpLen A B
  | _, _, 0, _, _, _ => Nat.zero_le _
  | [], _, e + 1, hA, _, _ => absurd hA (by simp)
  | _ :: _, [], e + 1, _, hB, _ => absurd hB (by simp)
  | a :: A, b :: B, e + 1, hA, hB, hagr => by
    rw [lcpLen, if_pos (by simpa using hagr 0 (by omega))]
    have hrec : e ≤ lcpLen A B := by
      refine lcpLen_ge_of_agree A B e (by simpa using hA) (by simpa using hB) ?_
      intro d hd
      simpa using hagr (d + 1) (by omega)
    omega

/-- The exit of a completed scan is exactly the truncated common-prefix
length of the two suffixes. -/
theorem lcpLen_drop_of_scan {t : Text} {i q L2 : Nat} (hiL2 : i + L2 ≤ t.length)
    (hqL2 : q + L2 ≤ t.length)
    (hagr : ∀ d, d < L2 → padAt t (i + d) = padAt t (q + d))
    (hmis : padAt t (i + L2) ≠ padAt t (q + L2)) :
    lcpLen (t.drop i) (t.drop q) = L2 := by
  have hge : L2 ≤ lcpLen (t.drop i) (t.drop q) := by
    refine lcpLen_ge_of_agree (t.drop i) (t.drop q) L2
      (by rw [List.length_drop]; omega) (by rw [List.length_drop]; omega) ?_
    intro d hd
    rw [drop_getD, drop_getD]
    exact hagr d hd
  have hle : lcpLen (t.drop i) (t.drop q) ≤ L2 := by
    rcases Nat.lt_or_ge (i + L2) t.length with hi2 | hi2
    · rcases Nat.lt_or_ge (q + L2) t.length with hq2 | hq2
      · by_contra hc
        have h3 := getD_eq_of_lt_lcpLen (x := t.drop i) (y := t.drop q) (u := L2)
          (by omega)
        rw [drop_getD, drop_getD] at h3
        exact hmis h3
      · have hq3 : (t.drop q).length = L2 := by rw [List.length_drop]; omega
        rw [← hq3]
        exact lcpLen_le_right _ _
    · have hi3 : (t.drop i).length = L2 := by rw [List.length_drop]; omega
      rw [← hi3]
      exact lcpLen_le_left _ _
  omega

/-- The exit of a completed scan is also exactly the padded
common-prefix length of the two suffixes. -/
theorem lcpLen_padTake_of_scan {t : Text} {i q L2 : Nat} (hL2n : L2 < t.length)
    (hagr : ∀ d, d < L2 → padAt t (i + d) = padAt t (q + d))
    (hmis : padAt t (i + L2) ≠ padAt t (q + L2)) :
    lcpLen (padTake t t.length i) (padTake t t.length q) = L2 :=
  Nat.le_antisymm (lcpLen_padTake_le hL2n hmis)
    (lcpLen_padTake_of_agree t L2 t.length i q (by omega) hagr)

/-- The main loop of `findLCP` on an arbitrary text, given only that it
completed: the recorded values satisfy the Kasai inequality at every
consecutive pair, sentinel entries are `0`, every recorded value is the
common-prefix length (truncated and padded alike) of its suffix and the
suffix one slot earlier in the suffix array, all values are bounded by
the length of the returned string, which occurs in the text and — if
nonzero — is attained by a recorded value.  The carried invariants tie
the running `L` to the pending scan: the two suffixes about to be
scanned agree on their first `L` padded characters, and `L` is `0` when
the next index is the sentinel slot. -/
theorem lcpLoop_pad_spec (t : Text) :
    ∀ (c i L maxL : Nat) (lcp acc lcpF accF : List Nat),
      lcpLoop t (phiList t (buildSa t)) (List.range' i c) L maxL lcp acc =
        some (lcpF, accF) →
      i + c = t.length →
      acc.length = i →
      (∀ k2, 0 < k2 → k2 < i → acc.getD (k2 - 1) 0 ≤ acc.getD k2 0 + 1) →
      (∀ u, u < i → (phiList t (buildSa t)).getD u 0 = -1 → acc.getD u 0 = 0) →
      (0 < i → (phiList t (buildSa t)).getD (i - 1) 0 ≠ -1 →
        acc.getD (i - 1) 0 ≤ L + 1) →
      (i < t.length → (phiList t (buildSa t)).getD i 0 = -1 → L = 0) →
      (i < t.length → (phiList t (buildSa t)).getD i 0 ≠ -1 →
        ∀ d, d < L → padAt t (i + d) =
          padAt t (((phiList t (buildSa t)).getD i 0).toNat + d)) →
      (∀ u, u < i → acc.getD u 0 ≤ maxL) →
      (∃ w, w + maxL ≤ t.length ∧ lcp = (t.drop w).take maxL) →
      lcp.length = maxL →
      (maxL = 0 ∨ ∃ u, u < i ∧ (phiList t (buildSa t)).getD u 0 ≠ -1 ∧
        acc.getD u 0 = maxL) →
      (∀ u, u < i → (phiList t (buildSa t)).getD u 0 ≠ -1 →
        acc.getD u 0 =
          lcpLen (t.drop u) (t.drop ((phiList t (buildSa t)).getD u 0).toNat)) →
      (∀ u, u < i → (phiList t (buildSa t)).getD u 0 ≠ -1 →
        acc.getD u 0 = lcpLen (padTake t t.length u)
          (padTake t t.length (((phiList t (buildSa t)).getD u 0).toNat))) →
      accF.length = t.length ∧
        (∀ k2, 0 < k2 → k2 < t.length →
          accF.getD (k2 - 1) 0 ≤ accF.getD k2 0 + 1) ∧
        (∃ w, w + lcpF.length ≤ t.length ∧ lcpF = (t.drop w).take lcpF.length) ∧
        (∀ u, u < t.length → accF.getD u 0 ≤ lcpF.length) ∧
        (lcpF.length = 0 ∨ ∃ u, u < t.length ∧
          (phiList t (buildSa t)).getD u 0 ≠ -1 ∧ accF.getD u 0 = lcpF.length) ∧
        (∀ u, u < t.length → (phiList t (buildSa t)).getD u 0 ≠ -1 →
          accF.getD u 0 =
            lcpLen (t.drop u) (t.drop ((phiList t (buildSa t)).getD u 0).toNat)) ∧
        (∀ u, u < t.length → (phiList t (buildSa t)).getD u 0 ≠ -1 →
          accF.getD u 0 = lcpLen (padTake t t.length u)
            (padTake t t.length (((phiList t (buildSa t)).getD u 0).toNat)))
  | 0, i, L, maxL, lcp, acc, lcpF, accF, h, hic, halen, hIC1, hIC3, hIC2, hIC4s,
      hIC4, hM1, hM2, hM3, hM4, hM5, hM6 => by
    have hieq : i = t.length := by omega
    subst hieq
    have h3 := Option.some.inj
      (show some ((lcp, acc) : List Nat × List Nat) = some (lcpF, accF) from h)
    injection h3 with he1 he2
    subst he1
    subst he2
    rw [hM3]
    exact ⟨halen, hIC1, hM2, hM1, hM4, hM5, hM6⟩
  | c + 1, i, L, maxL, lcp, acc, lcpF, accF, h, hic, halen, hIC1, hIC3, hIC2, hIC4s,
      hIC4, hM1, hM2, hM3, hM4, hM5, hM6 => by
    have hi : i < t.length := by omega
    rw [List.range'_succ] at h
    by_cases hsent : (phiList t (buildSa t)).getD i 0 = -1
    · -- the sentinel slot: record 0 and continue with `L` untouched
      rw [lcpLoop, if_pos hsent] at h
      have hL0 : L = 0 := hIC4s hi hsent
      have hip0 : i = (buildSa t).getD 0 0 := (sent_iff hi).mp hsent
      refine lcpLoop_pad_spec t c (i + 1) L maxL lcp (acc ++ [0]) lcpF accF h
        (by omega) (by simp [halen]) ?_ ?_ ?_ ?_ ?_ ?_ hM2 hM3 ?_ ?_ ?_
      · intro k2 hk2 hk2i
        rcases Nat.lt_or_ge k2 i with hki | hki
        · rw [List.getD_append _ _ _ _ (by omega), List.getD_append _ _ _ _ (by omega)]
          exact hIC1 k2 hk2 hki
        · have hk2eq : k2 = i := by omega
          subst hk2eq
          rw [List.getD_append _ _ _ _ (by omega),
            List.getD_append_right _ _ _ _ (by omega), halen, Nat.sub_self,
            List.getD_cons_zero]
          have hns : (phiList t (buildSa t)).getD (k2 - 1) 0 ≠ -1 := by
            intro hc
            have h5 := (sent_iff (show k2 - 1 < t.length from by omega)).mp hc
            omega
          have h6 := hIC2 (by omega) hns
          omega
      · intro u hu hus
        rcases Nat.lt_or_ge u i with h2 | h2
        · rw [List.getD_append _ _ _ _ (by omega)]
          exact hIC3 u h2 hus
        · have h5 : u = i := by omega
          subst h5
          rw [List.getD_append_right _ _ _ _ (by omega), halen, Nat.sub_self,
            List.getD_cons_zero]
      · intro h1 h2
        rw [show i + 1 - 1 = i from by omega] at h2
        exact absurd hsent h2
      · intro h1 h2
        exfalso
        have h5 := (sent_iff h1).mp h2
        omega
      · intro h1 h2 d hd
        rw [hL0] at hd
        exact absurd hd (by omega)
      · intro u hu
        rcases Nat.lt_or_ge u i with h2 | h2
        · rw [List.getD_append _ _ _ _ (by omega)]
          exact hM1 u h2
        · have h5 : u = i := by omega
          subst h5
          rw [List.getD_append_right _ _ _ _ (by omega), halen, Nat.sub_self,
            List.getD_cons_zero]
          exact Nat.zero_le _
      · rcases hM4 with h2 | ⟨u, hu, hns2, hval⟩
        · exact Or.inl h2
        · refine Or.inr ⟨u, by omega, hns2, ?_⟩
          rw [List.getD_append _ _ _ _ (by omega)]
          exact hval
      · intro u hu hns2
        rcases Nat.lt_or_ge u i with h2 | h2
        · rw [List.getD_append _ _ _ _ (by omega)]
          exact hM5 u h2 hns2
        · have h5 : u = i := by omega
          subst h5
          exact absurd hsent hns2
      · intro u hu hns2
        rcases Nat.lt_or_ge u i with h2 | h2
        · rw [List.getD_append _ _ _ _ (by omega)]
          exact hM6 u h2 hns2
        · have h5 : u = i := by omega
          subst h5
          exact absurd hsent hns2
    · -- a regular slot: the scan ran and completed
      rw [lcpLoop, if_neg hsent] at h
      obtain ⟨q, hqv, hq, hqi, hqidx⟩ := phi_target hi hsent
      have htn : ((phiList t (buildSa t)).getD i 0).toNat = q := by
        rw [hqv]
        simp
      cases hkas : kasaiLoop t i ((phiList t (buildSa t)).getD i 0).toNat
          (t.length + 1) L with
      | none =>
        rw [hkas] at h
        exact absurd
          (show (none : Option (List Nat × List Nat)) = some (lcpF, accF) from h)
          (by simp)
      | some L2 =>
        rw [hkas] at h
        have h2 : (if maxL < L2 then
            lcpLoop t (phiList t (buildSa t)) (List.range' (i + 1) c) (L2 - 1) L2
              ((t.drop i).take L2) (acc ++ [L2])
          else lcpLoop t (phiList t (buildSa t)) (List.range' (i + 1) c) (L2 - 1)
              maxL lcp (acc ++ [L2])) = some (lcpF, accF) := h
        rw [htn] at hkas
        obtain ⟨hLle, hiL2, hqL2, hmis, hagr⟩ :=
          kasaiLoop_run (t.length + 1) L L2 hkas
        have hfull : ∀ d, d < L2 → padAt t (i + d) = padAt t (q + d) := by
          intro d hd
          rcases Nat.lt_or_ge d L with hdL | hdL
          · have h5 := hIC4 hi hsent d hdL
            rwa [htn] at h5
          · exact hagr d hdL hd
        have hL2n : L2 < t.length := by omega
        have hrq : rankAt (build t).2 q ≤ rankAt (build t).2 i := by
          have h3 := buildSa_rankLe
            (show (buildSa t).indexOf q ≤ (buildSa t).indexOf i from by omega)
            (buildSa_indexOf_lt hi)
          rwa [buildSa_getD_indexOf hq, buildSa_getD_indexOf hi] at h3
        have hpadle : lexLe (padTake t t.length q) (padTake t t.length i) :=
          rank_padLe hq hi hrq
        have hdir : padAt t (q + L2) < padAt t (i + L2) :=
          padLt_of_padLe_of_mismatch hL2n hpadle
            (fun d hd => (hfull d hd).symm) (fun hc => hmis hc.symm)
        have hyfacts : 2 ≤ L2 → q + 1 < t.length ∧
            (∀ d, d < L2 - 1 → padAt t (i + 1 + d) = padAt t (q + 1 + d)) ∧
            lexLt (padTake t t.length (q + 1)) (padTake t t.length (i + 1)) := by
          intro hL22
          have hy : q + 1 < t.length := by omega
          have hagr2 : ∀ d, d < L2 - 1 →
              padAt t (i + 1 + d) = padAt t (q + 1 + d) := by
            intro d hd
            have h5 := hfull (d + 1) (by omega)
            rw [show i + (d + 1) = i + 1 + d from by omega,
              show q + (d + 1) = q + 1 + d from by omega] at h5
            exact h5
          refine ⟨hy, hagr2, ?_⟩
          refine padTake_lt_of_agree t (L2 - 1) t.length (q + 1) (i + 1) (by omega)
            (fun d hd => (hagr2 d hd).symm) ?_
          rw [show q + 1 + (L2 - 1) = q + L2 from by omega,
            show i + 1 + (L2 - 1) = i + L2 from by omega]
          exact hdir
        have hhard : i + 1 < t.length →
            (phiList t (buildSa t)).getD (i + 1) 0 = -1 → L2 ≤ 1 := by
          intro h1 hs2
          by_contra hbig
          obtain ⟨hy, hagr2, hylt⟩ := hyfacts (by omega)
          have hp0 : i + 1 = (buildSa t).getD 0 0 := (sent_iff h1).mp hs2
          have hmin := rank_min (t := t) hy
          rw [← hp0] at hmin
          exact absurd (rank_padLe h1 hy hmin) (lexLt_iff_not_lexLe.mp hylt)
        have hIC4' : i + 1 < t.length →
            (phiList t (buildSa t)).getD (i + 1) 0 ≠ -1 →
            ∀ d, d < L2 - 1 → padAt t (i + 1 + d) =
              padAt t (((phiList t (buildSa t)).getD (i + 1) 0).toNat + d) := by
          intro h1 h2 d hd
          have hL22 : 2 ≤ L2 := by omega
          obtain ⟨hy, hagr2, hylt⟩ := hyfacts hL22
          obtain ⟨q2, hq2v, hq2, hq2ne, hq2idx⟩ := phi_target h1 h2
          have htn2 : ((phiList t (buildSa t)).getD (i + 1) 0).toNat = q2 := by
            rw [hq2v]
            simp
          rw [htn2]
          have hry : rankAt (build t).2 (q + 1) < rankAt (build t).2 (i + 1) := by
            rcases Nat.lt_or_ge (rankAt (build t).2 (q + 1))
              (rankAt (build t).2 (i + 1)) with h3 | h3
            · exact h3
            · exact absurd (rank_padLe h1 hy h3) (lexLt_iff_not_lexLe.mp hylt)
          have hslot := slot_lt_of_rank_lt hy h1 hry
          have hrq2le : rankAt (build t).2 (q + 1) ≤ rankAt (build t).2 q2 := by
            have h4 := buildSa_rankLe
              (show (buildSa t).indexOf (q + 1) ≤ (buildSa t).indexOf q2 from by omega)
              (buildSa_indexOf_lt hq2)
            rwa [buildSa_getD_indexOf hy, buildSa_getD_indexOf hq2] at h4
          have hrq2ge : rankAt (build t).2 q2 ≤ rankAt (build t).2 (i + 1) := by
            have h4 := buildSa_rankLe
              (show (buildSa t).indexOf q2 ≤ (buildSa t).indexOf (i + 1) from by omega)
              (buildSa_indexOf_lt h1)
            rwa [buildSa_getD_indexOf hq2, buildSa_getD_indexOf h1] at h4
          have hle1 : lexLe (padTake t t.length (q + 1)) (padTake t t.length q2) :=
            rank_padLe hy hq2 hrq2le
          have hle2 : lexLe (padTake t t.length q2) (padTake t t.length (i + 1)) :=
            rank_padLe hq2 h1 hrq2ge
          have hcp1 : L2 - 1 ≤ lcpLen (padTake t t.length (q + 1))
              (padTake t t.length (i + 1)) := by
            refine lcpLen_padTake_of_agree t (L2 - 1) t.length (q + 1) (i + 1)
              (by omega) ?_
            intro d2 hd2
            exact (hagr2 d2 hd2).symm
          have hcp2 := lcpLen_le_of_between hle1 hle2
          have hcp4 : L2 - 1 ≤ lcpLen (padTake t t.length (i + 1))
              (padTake t t.length q2) := by
            rw [lcpLen_comm]
            omega
          exact agree_of_lcpLen_padTake hcp4 d hd
        have htrunc : lcpLen (t.drop i) (t.drop q) = L2 :=
          lcpLen_drop_of_scan hiL2 hqL2 hfull hmis
        have hpadeq : lcpLen (padTake t t.length i) (padTake t t.length q) = L2 :=
          lcpLen_padTake_of_scan hL2n hfull hmis
        have hIC1' : ∀ k2, 0 < k2 → k2 < i + 1 →
            (acc ++ [L2]).getD (k2 - 1) 0 ≤ (acc ++ [L2]).getD k2 0 + 1 := by
          intro k2 hk2 hk2i
          rcases Nat.lt_or_ge k2 i with hki | hki
          · rw [List.getD_append _ _ _ _ (by omega), List.getD_append _ _ _ _ (by omega)]
            exact hIC1 k2 hk2 hki
          · have hk2eq : k2 = i := by omega
            subst hk2eq
            rw [List.getD_append _ _ _ _ (by omega),
              List.getD_append_right _ _ _ _ (by omega), halen, Nat.sub_self,
              List.getD_cons_zero]
            by_cases hns : (phiList t (buildSa t)).getD (k2 - 1) 0 = -1
            · have h5 := hIC3 (k2 - 1) (by omega) hns
              rw [h5]
              omega
            · have h5 := hIC2 (by omega) hns
              omega
        have hIC3' : ∀ u, u < i + 1 → (phiList t (buildSa t)).getD u 0 = -1 →
            (acc ++ [L2]).getD u 0 = 0 := by
          intro u hu hus
          rcases Nat.lt_or_ge u i with h3 | h3
          · rw [List.getD_append _ _ _ _ (by omega)]
            exact hIC3 u h3 hus
          · have h5 : u = i := by omega
            subst h5
            exact absurd hus hsent
        have hIC2' : 0 < i + 1 → (phiList t (buildSa t)).getD (i + 1 - 1) 0 ≠ -1 →
            (acc ++ [L2]).getD (i + 1 - 1) 0 ≤ (L2 - 1) + 1 := by
          intro h1 h3
          rw [show i + 1 - 1 = i from by omega,
            List.getD_append_right _ _ _ _ (by omega), halen, Nat.sub_self,
            List.getD_cons_zero]
          omega
        have hIC4s' : i + 1 < t.length →
            (phiList t (buildSa t)).getD (i + 1) 0 = -1 → L2 - 1 = 0 := by
          intro h1 h3
          have h5 := hhard h1 h3
          omega
        have hM5' : ∀ u, u < i + 1 → (phiList t (buildSa t)).getD u 0 ≠ -1 →
            (acc ++ [L2]).getD u 0 =
              lcpLen (t.drop u) (t.drop ((phiList t (buildSa t)).getD u 0).toNat) := by
          intro u hu hns2
          rcases Nat.lt_or_ge u i with h3 | h3
          · rw [List.getD_append _ _ _ _ (by omega)]
            exact hM5 u h3 hns2
          · have h5 : u = i := by omega
            subst h5
            rw [List.getD_append_right _ _ _ _ (by omega), halen, Nat.sub_self,
              List.getD_cons_zero, htn]
            exact htrunc.symm
        have hM6' : ∀ u, u < i + 1 → (phiList t (buildSa t)).getD u 0 ≠ -1 →
            (acc ++ [L2]).getD u 0 = lcpLen (padTake t t.length u)
              (padTake t t.length (((phiList t (buildSa t)).getD u 0).toNat)) := by
          intro u hu hns2
          rcases Nat.lt_or_ge u i with h3 | h3
          · rw [List.getD_append _ _ _ _ (by omega)]
            exact hM6 u h3 hns2
          · have h5 : u = i := by omega
            subst h5
            rw [List.getD_append_right _ _ _ _ (by omega), halen, Nat.sub_self,
              List.getD_cons_zero, htn]
            exact hpadeq.symm
        rcases Nat.lt_or_ge maxL L2 with hmax | hmax
        · rw [if_pos hmax] at h2
          refine lcpLoop_pad_spec t c (i + 1) (L2 - 1) L2 ((t.drop i).take L2)
            (acc ++ [L2]) lcpF accF h2 (by omega) (by simp [halen]) hIC1' hIC3'
            hIC2' hIC4s' hIC4' ?_ ?_ ?_ ?_ hM5' hM6'
          · intro u hu
            rcases Nat.lt_or_ge u i with h3 | h3
            · rw [List.getD_append _ _ _ _ (by omega)]
              have h5 := hM1 u h3
              omega
            · have h5 : u = i := by omega
              subst h5
              rw [List.getD_append_right _ _ _ _ (by omega), halen, Nat.sub_self,
                List.getD_cons_zero]
          · exact ⟨i, hiL2, rfl⟩
          · rw [List.length_take, List.length_drop]
            omega
          · refine Or.inr ⟨i, by omega, hsent, ?_⟩
            rw [List.getD_append_right _ _ _ _ (by omega), halen, Nat.sub_self,
              List.getD_cons_zero]
        · rw [if_neg (by omega)] at h2
          refine lcpLoop_pad_spec t c (i + 1) (L2 - 1) maxL lcp
            (acc ++ [L2]) lcpF accF h2 (by omega) (by simp [halen]) hIC1' hIC3'
            hIC2' hIC4s' hIC4' ?_ hM2 hM3 ?_ hM5' hM6'
          · intro u hu
            rcases Nat.lt_or_ge u i with h3 | h3
            · rw [List.getD_append _ _ _ _ (by omega)]
              exact hM1 u h3
            · have h5 : u = i := by omega
              subst h5
              rw [List.getD_append_right _ _ _ _ (by omega), halen, Nat.sub_self,
                List.getD_cons_zero]
              omega
          · rcases hM4 with h3 | ⟨u, hu, hns2, hval⟩
            · exact Or.inl h3
            · refine Or.inr ⟨u, by omega, hns2, ?_⟩
              rw [List.getD_append _ _ _ _ (by omega)]
              exact hval

/-! ### Maximum over all suffix pairs -/

theorem maxOf_cons (a : Nat) (l : List Nat) : maxOf (a :: l) = max a (maxOf l) := rfl

theorem le_maxOf : ∀ {l : List Nat} {x : Nat}, x ∈ l → x ≤ maxOf l
  | a :: rest, x, h => by
    rcases List.mem_cons.mp h with rfl | h
    · rw [maxOf_cons]
      exact Nat.le_max_left _ _
    · rw [maxOf_cons]
      exact Nat.le_trans (le_maxOf h) (Nat.le_max_right _ _)

theorem maxOf_le : ∀ {l : List Nat} {b : Nat}, (∀ x ∈ l, x ≤ b) → maxOf l ≤ b
  | [], b, _ => Nat.zero_le b
  | a :: rest, b, h => by
    rw [maxOf_cons]
    exact Nat.max_le.mpr ⟨h a (List.mem_cons_self a rest),
      maxOf_le (fun x hx => h x (List.mem_cons_of_mem a hx))⟩

theorem lcpLen_le_maxPair {t : Text} {i j : Nat} (hi : i < t.length)
    (hj : j < t.length) (hij : i ≠ j) :
    lcpLen (t.drop i) (t.drop j) ≤ maxPairLcp t := by
  unfold maxPairLcp
  have h1 : lcpLen (t.drop i) (t.drop j) ≤
      maxOf ((List.range t.length).map fun j2 =>
        if i = j2 then 0 else lcpLen (t.drop i) (t.drop j2)) := by
    have hmem : (if i = j then 0 else lcpLen (t.drop i) (t.drop j)) ∈
        (List.range t.length).map fun j2 =>
          if i = j2 then 0 else lcpLen (t.drop i) (t.drop j2) :=
      List.mem_map.mpr ⟨j, List.mem_range.mpr hj, rfl⟩
    have := le_maxOf hmem
    rwa [if_neg hij] at this
  refine Nat.le_trans h1 (le_maxOf ?_)
  exact List.mem_map.mpr ⟨i, List.mem_range.mpr hi, rfl⟩

theorem maxPair_le {t : Text} {b : Nat}
    (h : ∀ i j, i < t.length → j < t.length → i ≠ j →
      lcpLen (t.drop i) (t.drop j) ≤ b) : maxPairLcp t ≤ b := by
  unfold maxPairLcp
  apply maxOf_le
  intro x hx
  obtain ⟨i, hi, rfl⟩ := List.mem_map.mp hx
  apply maxOf_le
  intro y hy
  obtain ⟨j, hj, rfl⟩ := List.mem_map.mp hy
  split_ifs with hij
  · exact Nat.zero_le b
  · exact h i j (List.mem_range.mp hi) (List.mem_range.mp hj) hij

theorem plcpTrue_le_maxPair {t : Text} {u : Nat} (hu : u < t.length) :
    plcpTrue t u ≤ maxPairLcp t := by
  unfold plcpTrue
  split_ifs with hs
  · exact Nat.zero_le _
  · obtain ⟨q, hqv, hq, hqu, _⟩ := phi_target hu hs
    rw [hqv]
    simp only [Int.toNat_natCast]
    exact lcpLen_le_maxPair hu hq (fun hc => hqu hc.symm)

/-- Any pair of distinct suffixes shares at most as much as the later of
the two (in suffix-array order) shares with its immediate predecessor. -/
theorem maxPair_le_of_plcp_ub {t : Text} (hnul : noNul t) {M : Nat}
    (hub : ∀ u, u < t.length → plcpTrue t u ≤ M) : maxPairLcp t ≤ M := by
  have key : ∀ x y, x < t.length → y < t.length →
      (buildSa t).indexOf x < (buildSa t).indexOf y →
      lcpLen (t.drop x) (t.drop y) ≤ M := by
    intro x y hx hy hpos
    have hns : (phiList t (buildSa t)).getD y 0 ≠ -1 := by
      intro hc
      rw [phi_sentinel_iff hy] at hc
      omega
    obtain ⟨q, hqv, hq, hqy, hqidx⟩ := phi_target hy hns
    have hplcp : plcpTrue t y = lcpLen (t.drop y) (t.drop q) := by
      unfold plcpTrue
      rw [if_neg hns, hqv]
      simp
    have hord1 : lexLe (t.drop x) (t.drop q) := by
      have h := buildSa_suffixLe hnul
        (show (buildSa t).indexOf x ≤ (buildSa t).indexOf q by omega)
        (buildSa_indexOf_lt hq)
      rwa [buildSa_getD_indexOf hx, buildSa_getD_indexOf hq] at h
    have hord2 : lexLe (t.drop q) (t.drop y) := by
      have h := buildSa_suffixLe hnul
        (show (buildSa t).indexOf q ≤ (buildSa t).indexOf y by omega)
        (buildSa_indexOf_lt hy)
      rwa [buildSa_getD_indexOf hq, buildSa_getD_indexOf hy] at h
    have hdom := lcpLen_le_of_between hord1 hord2
    have hcomm := lcpLen_comm (t.drop q) (t.drop y)
    have := hub y hy
    omega
  apply maxPair_le
  intro i j hi hj hij
  have hidx_ne : (buildSa t).indexOf i ≠ (buildSa t).indexOf j := by
    intro hc
    have h1 := buildSa_getD_indexOf hi
    have h2 := buildSa_getD_indexOf hj
    rw [hc] at h1
    rw [h1] at h2
    exact hij h2
  rcases Nat.lt_or_ge ((buildSa t).indexOf i) ((buildSa t).indexOf j) with h | h
  · exact key i j hi hj h
  · have := key j i hj hi (by omega)
    rw [lcpLen_comm] at this
    exact this

/-- Consecutive-slot padded common prefixes dominate the padded common
prefix of any slot pair: walking from slot `a` towards slot `c`, the
common prefix with the far end can only grow. -/
theorem slot_chain (t : Text) :
    ∀ (d a c : Nat), c = a + d + 1 → c < t.length →
      ∃ u, a ≤ u ∧ u + 1 ≤ c ∧
        lcpLen (padTake t t.length ((buildSa t).getD a 0))
            (padTake t t.length ((buildSa t).getD c 0)) ≤
          lcpLen (padTake t t.length ((buildSa t).getD u 0))
            (padTake t t.length ((buildSa t).getD (u + 1) 0))
  | 0, a, c, hc, hcn => by
    subst hc
    refine ⟨a, Nat.le_refl a, by omega, ?_⟩
    rw [show a + 0 + 1 = a + 1 from by omega]
  | d + 1, a, c, hc, hcn => by
    subst hc
    have h1 : lexLe (padTake t t.length ((buildSa t).getD a 0))
        (padTake t t.length ((buildSa t).getD (a + 1) 0)) := by
      apply rank_padLe (buildSa_getD_lt (by omega)) (buildSa_getD_lt (by omega))
      exact buildSa_rankLe (by omega) (by omega)
    have h2 : lexLe (padTake t t.length ((buildSa t).getD (a + 1) 0))
        (padTake t t.length ((buildSa t).getD (a + (d + 1) + 1) 0)) := by
      apply rank_padLe (buildSa_getD_lt (by omega)) (buildSa_getD_lt (by omega))
      exact buildSa_rankLe (by omega) (by omega)
    have h3 := lcpLen_le_of_between h1 h2
    obtain ⟨u, hu1, hu2, hu3⟩ :=
      slot_chain t d (a + 1) (a + (d + 1) + 1) (by omega) (by omega)
    exact ⟨u, by omega, hu2, by omega⟩

/-- Any slot-ordered pair of suffixes is dominated by some non-sentinel
position paired with its Phi target. -/
theorem pair_le_adjacent {t : Text} {x y : Nat} (hx : x < t.length)
    (hy : y < t.length) (hxy : (buildSa t).indexOf x < (buildSa t).indexOf y) :
    ∃ v, v < t.length ∧ (phiList t (buildSa t)).getD v 0 ≠ -1 ∧
      lcpLen (t.drop x) (t.drop y) ≤
        lcpLen (padTake t t.length v)
          (padTake t t.length (((phiList t (buildSa t)).getD v 0).toNat)) := by
  have hcn : (buildSa t).indexOf y < t.length := buildSa_indexOf_lt hy
  obtain ⟨u, hu1, hu2, hu3⟩ := slot_chain t
    ((buildSa t).indexOf y - (buildSa t).indexOf x - 1)
    ((buildSa t).indexOf x) ((buildSa t).indexOf y) (by omega) hcn
  rw [buildSa_getD_indexOf hx, buildSa_getD_indexOf hy] at hu3
  have hv : (buildSa t).getD (u + 1) 0 < t.length := buildSa_getD_lt (by omega)
  have hvidx : (buildSa t).indexOf ((buildSa t).getD (u + 1) 0) = u + 1 :=
    buildSa_indexOf_getD (by omega)
  have hns : (phiList t (buildSa t)).getD ((buildSa t).getD (u + 1) 0) 0 ≠ -1 := by
    intro hc
    rw [phi_sentinel_iff hv, hvidx] at hc
    omega
  obtain ⟨q2, hq2v, hq2, hq2ne, hq2idx⟩ := phi_target hv hns
  rw [hvidx] at hq2idx
  have htn2 : ((phiList t (buildSa t)).getD ((buildSa t).getD (u + 1) 0) 0).toNat =
      q2 := by
    rw [hq2v]
    simp
  have hq2u : (buildSa t).getD u 0 = q2 := by
    have h5 := buildSa_getD_indexOf hq2
    rw [show (buildSa t).indexOf q2 = u from by omega] at h5
    exact h5
  refine ⟨(buildSa t).getD (u + 1) 0, hv, hns, ?_⟩
  rw [htn2]
  have htp : lcpLen (t.drop x) (t.drop y) ≤
      lcpLen (padTake t t.length x) (padTake t t.length y) := by
    have hel : lcpLen (t.drop x) (t.drop y) ≤ t.length := by
      have h6 := lcpLen_le_left (t.drop x) (t.drop y)
      rw [List.length_drop] at h6
      omega
    refine lcpLen_padTake_of_agree t (lcpLen (t.drop x) (t.drop y)) t.length x y
      hel ?_
    intro d hd
    have h6 := getD_eq_of_lt_lcpLen (x := t.drop x) (y := t.drop y) (u := d) hd
    rw [drop_getD, drop_getD] at h6
    exact h6
  have hcm : lcpLen (padTake t t.length ((buildSa t).getD u 0))
      (padTake t t.length ((buildSa t).getD (u + 1) 0)) =
      lcpLen (padTake t t.length ((buildSa t).getD (u + 1) 0))
        (padTake t t.length q2) := by
    rw [hq2u, lcpLen_comm]
  omega

/-- A bound on every recorded adjacent padded common prefix bounds the
maximum over all pairs of distinct suffixes. -/
theorem maxPair_le_of_adjacent {t : Text} {M : Nat}
    (hub : ∀ v, v < t.length → (phiList t (buildSa t)).getD v 0 ≠ -1 →
      lcpLen (padTake t t.length v)
        (padTake t t.length (((phiList t (buildSa t)).getD v 0).toNat)) ≤ M) :
    maxPairLcp t ≤ M := by
  apply maxPair_le
  intro i j hi hj hij
  have hidx_ne : (buildSa t).indexOf i ≠ (buildSa t).indexOf j := by
    intro hc
    have h1 := buildSa_getD_indexOf hi
    have h2 := buildSa_getD_indexOf hj
    rw [hc] at h1
    rw [h1] at h2
    exact hij h2
  rcases Nat.lt_or_ge ((buildSa t).indexOf i) ((buildSa t).indexOf j) with h | h
  · obtain ⟨v, hv, hns, hle⟩ := pair_le_adjacent hi hj h
    have h5 := hub v hv hns
    omega
  · obtain ⟨v, hv, hns, hle⟩ := pair_le_adjacent hj hi (by omega)
    rw [lcpLen_comm] at hle
    have h5 := hub v hv hns
    omega

/-! ### Claims C6 and C7 -/

/-- C6: for every text, whenever `findLCP` computes a `plcp` array (the
embedding returns one exactly when every scan stays in bounds), the
array satisfies the Kasai monotonicity invariant `PLCP[k] ≥ PLCP[k-1] - 1`
at every pair of consecutive original-order indices — this is why the
running counter `L`, reset to `max(L-1, 0)` after each step, never
re-scans from zero.  No NUL-freeness hypothesis is needed. -/
theorem claim6_plcp_mono (t : Text) (l : List Nat) (hp : plcpList t = some l) :
    ∀ k2, 0 < k2 → k2 < l.length → l.getD (k2 - 1) 0 ≤ l.getD k2 0 + 1 := by
  unfold plcpList at hp
  cases hru : lcpRun t with
  | none =>
    rw [hru] at hp
    exact absurd hp (by simp)
  | some pr =>
    rw [hru] at hp
    have hl : pr.2 = l := by simpa using hp
    unfold lcpRun at hru
    by_cases h0 : t.length = 0
    · rw [if_pos h0] at hru
      exact absurd hru (by simp)
    · rw [if_neg h0, List.range_eq_range'] at hru
      obtain ⟨hlen, hic1, -, -, -, -, -⟩ :=
        lcpLoop_pad_spec t t.length 0 0 0 [] [] pr.1 pr.2 hru (by omega) rfl
          (fun k2 h1 h2 => absurd h2 (by omega))
          (fun u hu => absurd hu (by omega))
          (fun h1 => absurd h1 (by omega))
          (fun _ _ => rfl)
          (fun _ _ d hd => absurd hd (by omega))
          (fun u hu => absurd hu (by omega))
          ⟨0, by omega, by simp⟩
          rfl
          (Or.inl rfl)
          (fun u hu => absurd hu (by omega))
          (fun u hu => absurd hu (by omega))
      subst hl
      intro k2 h1 h2
      exact hic1 k2 h1 (by omega)

/-- Witness for C6 at the NUL-containing text `[2, 0, 2, 1]`: the run
completes with plcp = [0, 0, 1, 0] and the inequality holds at the pair
around the recorded maximum. -/
theorem claim6_witness :
    plcpList [2, 0, 2, 1] = some [0, 0, 1, 0] ∧
      [0, 0, 1, 0].getD (2 - 1) 0 ≤ [0, 0, 1, 0].getD 2 0 + 1 :=
  ⟨by decide,
    claim6_plcp_mono [2, 0, 2, 1] [0, 0, 1, 0] (by decide) 2 (by decide) (by decide)⟩

/-- C7 (amended): for every text, whenever `findLCP` returns a string
(the embedding returns one exactly when `n > 0` and every scan stays in
bounds), that string occurs in the text and its length is the maximum
over all pairs of distinct suffixes of the length of their longest
common prefix — the longest-repeated-substring length. -/
theorem claim7_lrs (t : Text) (r : List Nat) (hr : findLCP t = some r) :
    (∃ w, w + r.length ≤ t.length ∧ r = (t.drop w).take r.length) ∧
      r.length = maxPairLcp t := by
  unfold findLCP at hr
  cases hru : lcpRun t with
  | none =>
    rw [hru] at hr
    exact absurd hr (by simp)
  | some pr =>
    rw [hru] at hr
    have hl : pr.1 = r := by simpa using hr
    unfold lcpRun at hru
    by_cases h0 : t.length = 0
    · rw [if_pos h0] at hru
      exact absurd hru (by simp)
    · rw [if_neg h0, List.range_eq_range'] at hru
      obtain ⟨hlen, -, hocc, hub, hex, htr, hpd⟩ :=
        lcpLoop_pad_spec t t.length 0 0 0 [] [] pr.1 pr.2 hru (by omega) rfl
          (fun k2 h1 h2 => absurd h2 (by omega))
          (fun u hu => absurd hu (by omega))
          (fun h1 => absurd h1 (by omega))
          (fun _ _ => rfl)
          (fun _ _ d hd => absurd hd (by omega))
          (fun u hu => absurd hu (by omega))
          ⟨0, by omega, by simp⟩
          rfl
          (Or.inl rfl)
          (fun u hu => absurd hu (by omega))
          (fun u hu => absurd hu (by omega))
      subst hl
      refine ⟨hocc, ?_⟩
      apply Nat.le_antisymm
      · rcases hex with h | ⟨u, hu, hns, hval⟩
        · rw [h]
          exact Nat.zero_le _
        · obtain ⟨q, hqv, hq, hqne, -⟩ := phi_target hu hns
          have h5 := htr u hu hns
          rw [hqv] at h5
          simp only [Int.toNat_natCast] at h5
          rw [← hval, h5]
          exact lcpLen_le_maxPair hu hq (fun hc => hqne hc.symm)
      · refine maxPair_le_of_adjacent ?_
        intro v hv hns
        have h6 := hpd v hv hns
        have h7 := hub v hv
        omega

/-- Witness for C7 at the NUL-containing text `[2, 0, 2, 1]`: `findLCP`
returns the string `[2]`, which occurs at position 0 and has the
longest-repeated-substring length 1. -/
theorem claim7_witness :
    findLCP [2, 0, 2, 1] = some [2] ∧
      ((∃ w, w + [2].length ≤ ([2, 0, 2, 1] : Text).length ∧
          [2] = (([2, 0, 2, 1] : Text).drop w).take [2].length) ∧
        [2].length = maxPairLcp [2, 0, 2, 1]) :=
  ⟨by decide, claim7_lrs [2, 0, 2, 1] [2] (by decide)⟩

/-- Counterexample to C7 as frozen: on the empty text `findLCP` returns
no string at all (line 167 reads `sa[0]` from an empty vector — see also
C4), so it is not the case that for every text the returned string is
the longest repeated substring. -/
theorem claim7_counterexample : findLCP ([] : Text) = none := by decide

end SuffixArrayCpp
